import Mathlib

/-!
Verification of the XChange matching-engine core: a shallow embedding of
`OrderBook` (OrderBook.h), `ConcurrentQueue` and `AsyncMatchingEngine`
(main.cpp), together with proofs of the spec's testable properties.

Machine integers of the source (`Price`/`Qty` are `int64_t`, `OrderId` is
`uint64_t`) are modelled as `Int` and `Nat`: quantities only ever decrease
by `min` steps towards zero and prices are never arithmetically combined,
so no operation of the embedded code can overflow a 64-bit value that its
inputs fit in.  The `ts` field of `Order` is omitted: per the data model it
is diagnostic only and never read by the embedded operations.
-/

namespace XChange

inductive Side where
  | Buy : Side
  | Sell : Side
deriving DecidableEq

/-- `struct Order` from Types.h (the diagnostic `ts` field is omitted). -/
structure Order where
  id : Nat
  side : Side
  price : Int
  qty : Int
deriving DecidableEq

/-- `struct Trade` from Types.h. -/
structure Trade where
  maker_id : Nat
  taker_id : Nat
  price : Int
  qty : Int
deriving DecidableEq

/-- One price level: price paired with the FIFO queue (`std::deque<Order>`). -/
abbrev Level := Int × List Order

/-- `std::unordered_map<OrderId, std::pair<Side, Price>>` as an association
list with at most one entry per key (maintained by erase-before-insert). -/
abbrev IdIndex := List (Nat × Side × Int)

/-- The `OrderBook` private state: `bids_` sorted highest price first,
`asks_` sorted lowest price first (the `std::map` comparators), `id_index_`. -/
structure Book where
  bids : List Level
  asks : List Level
  id_index : IdIndex
deriving DecidableEq

def emptyBook : Book := ⟨[], [], []⟩

/-- `id_index_.erase(id)` on the association-list model. -/
def idxErase (idx : IdIndex) (i : Nat) : IdIndex :=
  idx.filter (fun e => e.1 != i)

/-- `id_index_[id] = sp` (operator[] assignment: replace any existing entry). -/
def idxInsert (idx : IdIndex) (i : Nat) (sp : Side × Int) : IdIndex :=
  idxErase idx i ++ [(i, sp)]

/-- `id_index_.find(id)`. -/
def idxFind (idx : IdIndex) (i : Nat) : Option (Side × Int) :=
  (idx.find? (fun e => e.1 == i)).map (fun e => e.2)

/-- Erase a batch of ids (the erasures performed during one matching loop). -/
def idxEraseAll (idx : IdIndex) (ids : List Nat) : IdIndex :=
  ids.foldl idxErase idx

/-- `ladder.find(price)` returning the queue of that level. -/
def lookupLevel (ls : List Level) (p : Int) : Option (List Order) :=
  (ls.find? (fun l => l.1 == p)).map (fun l => l.2)

/-- Result of the inner (per-level) matching loop of `add_order`:
the trades pushed, the mutated incoming order, the remaining queue and the
ids erased from `id_index_`. -/
structure QMatch where
  trades : List Trade
  taker : Order
  queue : List Order
  removed : List Nat
deriving DecidableEq

/-- The inner `while (order.qty > 0 && !queue.empty())` loop of
`OrderBook::add_order`: trade against the queue front; pop it when fully
filled, otherwise leave the partial at the head and break. -/
def matchQueue (taker : Order) (queue : List Order) : QMatch :=
  match queue with
  | [] => ⟨[], taker, [], []⟩
  | resting :: rest =>
    if 0 < taker.qty then
      let traded := min taker.qty resting.qty
      let t : Trade := ⟨resting.id, taker.id, resting.price, traded⟩
      let taker2 : Order := { taker with qty := taker.qty - traded }
      let resting2 : Order := { resting with qty := resting.qty - traded }
      if resting2.qty = 0 then
        let r := matchQueue taker2 rest
        ⟨t :: r.trades, r.taker, r.queue, resting.id :: r.removed⟩
      else
        ⟨[t], taker2, resting2 :: rest, []⟩
    else ⟨[], taker, queue, []⟩

/-- Result of the outer crossing loop: trades, mutated incoming order,
the remaining ladder and the ids erased from `id_index_`. -/
structure LMatch where
  trades : List Trade
  taker : Order
  levels : List Level
  removed : List Nat
deriving DecidableEq

/-- The outer `while (order.qty > 0 && !asks_.empty())` loop of the Buy
branch of `add_order`: stop when `order.price < best_px`, otherwise run the
inner loop on the best level and erase the level if it empties.  (When the
inner loop leaves the queue non-empty the taker has quantity 0 — lemma
`matchQueue_queue_ne_nil` — so the source loop exits there as well.) -/
def matchAsks (taker : Order) : List Level → LMatch
  | [] => ⟨[], taker, [], []⟩
  | (px, queue) :: rest =>
    if 0 < taker.qty then
      if taker.price < px then ⟨[], taker, (px, queue) :: rest, []⟩
      else
        let r := matchQueue taker queue
        if r.queue.isEmpty then
          let r2 := matchAsks r.taker rest
          ⟨r.trades ++ r2.trades, r2.taker, r2.levels, r.removed ++ r2.removed⟩
        else
          ⟨r.trades, r.taker, (px, r.queue) :: rest, r.removed⟩
    else ⟨[], taker, (px, queue) :: rest, []⟩

/-- The outer crossing loop of the Sell branch: crosses the bids, stopping
when `order.price > best_px`. -/
def matchBids (taker : Order) : List Level → LMatch
  | [] => ⟨[], taker, [], []⟩
  | (px, queue) :: rest =>
    if 0 < taker.qty then
      if px < taker.price then ⟨[], taker, (px, queue) :: rest, []⟩
      else
        let r := matchQueue taker queue
        if r.queue.isEmpty then
          let r2 := matchBids r.taker rest
          ⟨r.trades ++ r2.trades, r2.taker, r2.levels, r.removed ++ r2.removed⟩
        else
          ⟨r.trades, r.taker, (px, r.queue) :: rest, r.removed⟩
    else ⟨[], taker, (px, queue) :: rest, []⟩

/-- `asks_[price].push_back(order)` on the ascending `std::map`: splice the
order into the sorted ladder, appending at the tail of an existing level. -/
def insertAsk (o : Order) : List Level → List Level
  | [] => [(o.price, [o])]
  | (px, q) :: rest =>
    if o.price < px then (o.price, [o]) :: (px, q) :: rest
    else if o.price = px then (px, q ++ [o]) :: rest
    else (px, q) :: insertAsk o rest

/-- `bids_[price].push_back(order)` on the descending `std::map`. -/
def insertBid (o : Order) : List Level → List Level
  | [] => [(o.price, [o])]
  | (px, q) :: rest =>
    if px < o.price then (o.price, [o]) :: (px, q) :: rest
    else if o.price = px then (px, q ++ [o]) :: rest
    else (px, q) :: insertBid o rest

/-- `OrderBook::enqueue`. -/
def enqueue (b : Book) (o : Order) : Book :=
  match o.side with
  | Side.Buy =>
    { b with bids := insertBid o b.bids,
             id_index := idxInsert b.id_index o.id (o.side, o.price) }
  | Side.Sell =>
    { b with asks := insertAsk o b.asks,
             id_index := idxInsert b.id_index o.id (o.side, o.price) }

/-- `OrderBook::add_order`: match the incoming order, then enqueue any
residual quantity. -/
def add_order (b : Book) (o : Order) : List Trade × Book :=
  match o.side with
  | Side.Buy =>
    let r := matchAsks o b.asks
    let b2 : Book := { b with asks := r.levels,
                              id_index := idxEraseAll b.id_index r.removed }
    if 0 < r.taker.qty then (r.trades, enqueue b2 r.taker) else (r.trades, b2)
  | Side.Sell =>
    let r := matchBids o b.bids
    let b2 : Book := { b with bids := r.levels,
                              id_index := idxEraseAll b.id_index r.removed }
    if 0 < r.taker.qty then (r.trades, enqueue b2 r.taker) else (r.trades, b2)

/-- Erase the first element of the queue whose id matches (the `dq.erase(itq)`
inside the scan of `OrderBook::cancel`). -/
def removeFirstById (q : List Order) (i : Nat) : List Order :=
  match q with
  | [] => []
  | o :: rest => if o.id = i then rest else o :: removeFirstById rest i

/-- Write back a level's queue after cancellation, erasing the level when the
queue became empty. -/
def setLevel (ls : List Level) (p : Int) (q : List Order) : List Level :=
  if q.isEmpty then ls.filter (fun l => l.1 != p)
  else ls.map (fun l => if l.1 == p then (p, q) else l)

/-- `OrderBook::cancel`: look up the id, scan the recorded level's queue,
remove the matching order, erase the index entry and an emptied level. -/
def cancel (b : Book) (i : Nat) : Bool × Book :=
  match idxFind b.id_index i with
  | none => (false, b)
  | some (side, price) =>
    match side with
    | Side.Buy =>
      match lookupLevel b.bids price with
      | none => (false, b)
      | some dq =>
        if dq.any (fun o => o.id == i) then
          (true, { b with bids := setLevel b.bids price (removeFirstById dq i),
                          id_index := idxErase b.id_index i })
        else (false, b)
    | Side.Sell =>
      match lookupLevel b.asks price with
      | none => (false, b)
      | some dq =>
        if dq.any (fun o => o.id == i) then
          (true, { b with asks := setLevel b.asks price (removeFirstById dq i),
                          id_index := idxErase b.id_index i })
        else (false, b)

/-- `OrderBook::best_bid`. -/
def best_bid (b : Book) : Option Int := b.bids.head?.map (fun l => l.1)

/-- `OrderBook::best_ask`. -/
def best_ask (b : Book) : Option Int := b.asks.head?.map (fun l => l.1)

/-- Run a sequence of `add_order` calls, collecting the book and all trades
in emission order. -/
def runOrders (b : Book) : List Order → Book × List Trade
  | [] => (b, [])
  | o :: os =>
    let r := add_order b o
    let rest := runOrders r.2 os
    (rest.1, r.1 ++ rest.2)

/-- A public mutating operation of the book. -/
inductive Op where
  | add : Order → Op
  | cancel : Nat → Op
deriving DecidableEq

def applyOp (b : Book) : Op → Book
  | Op.add o => (add_order b o).2
  | Op.cancel i => (cancel b i).2

def runOps (b : Book) : List Op → Book
  | [] => b
  | op :: ops => runOps (applyOp b op) ops

/-- Validity of an operation sequence: every added order has positive
quantity and an id fresh with respect to `U` and to all earlier adds. -/
def OpsValid : List Nat → List Op → Prop
  | _, [] => True
  | U, Op.add o :: ops => 0 < o.qty ∧ o.id ∉ U ∧ OpsValid (o.id :: U) ops
  | U, Op.cancel _ :: ops => OpsValid U ops

instance OpsValid.instDec : (U : List Nat) → (ops : List Op) → Decidable (OpsValid U ops)
  | _, [] => Decidable.isTrue trivial
  | U, Op.add o :: ops =>
    have : Decidable (OpsValid (o.id :: U) ops) := OpsValid.instDec _ _
    inferInstanceAs (Decidable (_ ∧ _ ∧ _))
  | U, Op.cancel _ :: ops => OpsValid.instDec U ops

/-- The ids of the orders added by a sequence of operations. -/
def addIds : List Op → List Nat
  | [] => []
  | Op.add o :: ops => o.id :: addIds ops
  | Op.cancel _ :: ops => addIds ops

/-! ### `ConcurrentQueue<T>` (main.cpp) -/

/-- The state a `ConcurrentQueue<T>` protects with its mutex: the pending
items `q_` and the `closed_` flag. -/
structure CQState (T : Type) where
  q : List T
  closed : Bool
deriving DecidableEq

namespace CQ

/-- `push`: silently dropped if closed, else appended at the tail. -/
def push {T : Type} (s : CQState T) (v : T) : CQState T :=
  if s.closed then s else { s with q := s.q ++ [v] }

/-- `try_pop`; `none` models a `false` return on an empty queue. -/
def try_pop {T : Type} (s : CQState T) : Option T × CQState T :=
  match s.q with
  | [] => (none, s)
  | v :: rest => (some v, { s with q := rest })

/-- Blocking `pop`.  The condition variable admits the thread only once
`closed_ || !q_.empty()`; an open empty queue keeps it waiting, modelled by
the outer `none`.  `some (none, s)` models a `false` return (closed and
drained); `some (some v, s)` a successful pop of the head. -/
def pop {T : Type} (s : CQState T) : Option (Option T × CQState T) :=
  match s.q with
  | [] => if s.closed then some (none, s) else none
  | v :: rest => some (some v, { s with q := rest })

/-- `close`: mark closed. -/
def close {T : Type} (s : CQState T) : CQState T := { s with closed := true }

/-- Repeated `try_pop` with fuel, collecting the popped values in order. -/
def drain {T : Type} : Nat → CQState T → List T
  | 0, _ => []
  | n + 1, s =>
    match try_pop s with
    | (none, _) => []
    | (some v, s') => v :: drain n s'

end CQ

/-! ### `AsyncMatchingEngine` (main.cpp): two-thread interleaving model

The shared state is `running_` (an atomic), the two queues (each protected
by its own mutex) and the book (touched only by the worker).  A step of the
worker either evaluates `while (running_)` or performs one
pop-and-process iteration; a step of the `shutdown()` caller performs the
compare-exchange, `inq_.close()`, the join, or `outq_.close()`.  An
execution interleaves the two threads under an explicit schedule. -/

/-- Program counter of the worker thread (`AsyncMatchingEngine::run`). -/
inductive WPC where
  | checkRun : WPC
  | popLoop : WPC
  | exited : WPC
deriving DecidableEq

/-- Program counter of the thread executing `AsyncMatchingEngine::shutdown`. -/
inductive SPC where
  | start : SPC
  | closeIn : SPC
  | joining : SPC
  | closeOut : SPC
  | done : SPC
deriving DecidableEq

structure Engine where
  running : Bool
  inq : CQState Order
  outq : CQState (List Trade)
  book : Book
  wpc : WPC
  spc : SPC
deriving DecidableEq

inductive Tid where
  | worker : Tid
  | shut : Tid
deriving DecidableEq

/-- One step of the worker: at `checkRun` evaluate `while (running_)`;
at `popLoop` perform `inq_.pop` — blocking (no progress) on an open empty
queue, exiting when closed and drained, otherwise popping the head,
calling `book_.add_order` and pushing a `TradeBatch` when non-empty. -/
def stepWorker (e : Engine) : Engine :=
  match e.wpc with
  | WPC.checkRun =>
    if e.running then { e with wpc := WPC.popLoop } else { e with wpc := WPC.exited }
  | WPC.popLoop =>
    match e.inq.q with
    | [] => if e.inq.closed then { e with wpc := WPC.exited } else e
    | o :: rest =>
      let r := add_order e.book o
      { e with inq := { e.inq with q := rest },
               book := r.2,
               outq := if r.1.isEmpty then e.outq else CQ.push e.outq r.1,
               wpc := WPC.checkRun }
  | WPC.exited => e

/-- One step of `shutdown()`: compare-exchange `running_`, close the
inbound queue, join (progresses only once the worker has exited), close the
outbound queue, return. -/
def stepShut (e : Engine) : Engine :=
  match e.spc with
  | SPC.start =>
    if e.running then { e with running := false, spc := SPC.closeIn }
    else { e with spc := SPC.done }
  | SPC.closeIn => { e with inq := CQ.close e.inq, spc := SPC.joining }
  | SPC.joining => if e.wpc = WPC.exited then { e with spc := SPC.closeOut } else e
  | SPC.closeOut => { e with outq := CQ.close e.outq, spc := SPC.done }
  | SPC.done => e

def stepEngine (e : Engine) : Tid → Engine
  | Tid.worker => stepWorker e
  | Tid.shut => stepShut e

def execEngine (e : Engine) : List Tid → Engine
  | [] => e
  | t :: ts => execEngine (stepEngine e t) ts

/-- Initial state for the drain-before-exit analysis: two orders were
accepted by `push` while the queue was open; the worker is at the top of
its loop; `shutdown()` is about to run. -/
def c9Init : Engine :=
  ⟨true, ⟨[⟨1, Side.Buy, 100, 10⟩, ⟨2, Side.Buy, 100, 10⟩], false⟩,
   ⟨[], false⟩, emptyBook, WPC.checkRun, SPC.start⟩

/-- The interleaving: worker processes order 1; `shutdown()` flips
`running_` and closes the inbound queue; the worker's next `while
(running_)` test fails; shutdown joins and closes the outbound queue. -/
def c9Sched : List Tid :=
  [Tid.worker, Tid.worker, Tid.shut, Tid.shut, Tid.worker, Tid.shut, Tid.shut]

/-! ### Concrete scenario states -/

/-- Scenario S2 book after orders 1–3. -/
def s2Book3 : Book :=
  (runOrders emptyBook
    [⟨1, Side.Sell, 101, 50⟩, ⟨2, Side.Sell, 102, 40⟩, ⟨3, Side.Buy, 100, 70⟩]).1

/-- Scenario S4 book after orders 1–2. -/
def s4Book2 : Book :=
  (runOrders emptyBook [⟨1, Side.Sell, 101, 10⟩, ⟨2, Side.Sell, 101, 10⟩]).1

/-- A small mixed operation sequence used as a concrete witness. -/
def c6Ops : List Op :=
  [Op.add ⟨1, Side.Buy, 100, 10⟩, Op.add ⟨2, Side.Sell, 105, 7⟩,
   Op.add ⟨3, Side.Buy, 105, 7⟩, Op.cancel 1]

/-- A one-order sequence used as a concrete witness for cancellation. -/
def c7Ops : List Op := [Op.add ⟨1, Side.Buy, 100, 10⟩]

/-- A partial-fill order sequence used as a concrete witness. -/
def c2Orders : List Order := [⟨1, Side.Sell, 101, 50⟩, ⟨2, Side.Buy, 102, 30⟩]

end XChange

namespace XChange

/-! ### Derived views of the book used to state invariants -/

def keys (ls : List Level) : List Int := ls.map (fun l => l.1)

def ordersOf (ls : List Level) : List Order := (ls.map (fun l => l.2)).flatten

def idsOf (ls : List Level) : List Nat := (ordersOf ls).map Order.id

/-- Every resting order paired with the price of its level. -/
def entriesOf (ls : List Level) : List (Int × Order) :=
  (ls.map (fun l => l.2.map (fun o => (l.1, o)))).flatten

def restingIds (b : Book) : List Nat := idsOf b.bids ++ idsOf b.asks

def ladderOf (b : Book) : Side → List Level
  | Side.Buy => b.bids
  | Side.Sell => b.asks

/-- Every resting order of the book originates from a submission in `S`:
same id and same (immutable) price. -/
def Sourced (S : List Order) (b : Book) : Prop :=
  ∀ o ∈ ordersOf b.bids ++ ordersOf b.asks, ∃ o₀ ∈ S, o₀.id = o.id ∧ o₀.price = o.price

def qtySum (q : List Order) : Int := (q.map Order.qty).sum

def levelsQty (ls : List Level) : Int := (ls.map (fun l => qtySum l.2)).sum

/-- Total quantity resting in the book. -/
def restingQty (b : Book) : Int := levelsQty b.bids + levelsQty b.asks

def tradedQty (ts : List Trade) : Int := (ts.map Trade.qty).sum

/-- Well-formedness of one queue: all orders carry the level's side and
price and strictly positive remaining quantity. -/
def QueueWF (s : Side) (p : Int) (q : List Order) : Prop :=
  ∀ o ∈ q, o.side = s ∧ o.price = p ∧ 0 < o.qty

/-- Well-formedness of a ladder: no empty level and every queue well-formed. -/
def LadderWF (s : Side) (ls : List Level) : Prop :=
  ∀ l ∈ ls, l.2 ≠ [] ∧ QueueWF s l.1 l.2

def SortedAsc (ls : List Level) : Prop := ls.Pairwise (fun a b => a.1 < b.1)

def SortedDesc (ls : List Level) : Prop := ls.Pairwise (fun a b => b.1 < a.1)

/-- The full book invariant maintained by every public operation. -/
structure BookWF (b : Book) : Prop where
  bidsSorted : SortedDesc b.bids
  asksSorted : SortedAsc b.asks
  bidsWF : LadderWF Side.Buy b.bids
  asksWF : LadderWF Side.Sell b.asks
  idsNodup : (restingIds b).Nodup
  uncrossed : ∀ pb ∈ keys b.bids, ∀ pa ∈ keys b.asks, pb < pa
  idx_to_book : ∀ e ∈ b.id_index,
    ∃ o, (e.2.2, o) ∈ entriesOf (ladderOf b e.2.1) ∧ o.id = e.1
  book_to_idx : ∀ s, ∀ pe ∈ entriesOf (ladderOf b s),
    idxFind b.id_index (pe.2).id = some (s, pe.1)

end XChange

namespace XChange

/-! ## Theorems -/

/-- With no remaining quantity the crossing loop does nothing. -/
theorem matchAsks_nonpos (tk : Order) (ls : List Level) (h : ¬ 0 < tk.qty) :
    matchAsks tk ls = ⟨[], tk, ls, []⟩ := by
  match ls with
  | [] => rfl
  | (px, q) :: rest => simp [matchAsks, h]

/-- With no remaining quantity the crossing loop does nothing (bid side). -/
theorem matchBids_nonpos (tk : Order) (ls : List Level) (h : ¬ 0 < tk.qty) :
    matchBids tk ls = ⟨[], tk, ls, []⟩ := by
  match ls with
  | [] => rfl
  | (px, q) :: rest => simp [matchBids, h]

/-- C10: an order with `qty ≤ 0` produces no trades and leaves the whole
book state unchanged — the crossing loops never run and the residual test
`order.qty > 0` fails, so nothing is enqueued and no index entry is
created; the order is silently discarded, not rejected and not accepted. -/
theorem add_order_nonpos_noop (b : Book) (o : Order) (h : o.qty ≤ 0) :
    add_order b o = ([], b) := by
  have h' : ¬ 0 < o.qty := not_lt.mpr h
  cases hs : o.side with
  | Buy => simp [add_order, hs, matchAsks_nonpos _ _ h', idxEraseAll, h']
  | Sell => simp [add_order, hs, matchBids_nonpos _ _ h', idxEraseAll, h']

/-- C10 witness: a concrete zero-quantity Sell against a non-trivial book. -/
theorem add_order_nonpos_noop_witness :
    ((⟨5, Side.Sell, 99, 0⟩ : Order).qty ≤ 0) ∧
    add_order s2Book3 ⟨5, Side.Sell, 99, 0⟩ = ([], s2Book3) :=
  ⟨by decide, add_order_nonpos_noop s2Book3 ⟨5, Side.Sell, 99, 0⟩ (by decide)⟩

/-- C1 counterexample: in scenario S2 the asks side after order 4 is NOT
empty — maker 2 rests with quantity 10 at price 102 (order 2 offered 40 and
traded only 30) — refuting the claim's "afterwards the asks side is empty". -/
theorem s2_asks_not_empty :
    ¬ ((add_order s2Book3 ⟨4, Side.Buy, 102, 80⟩).2.asks = []) := by decide

/-- C1 (amended): in scenario S2 the `add_order` call for order 4 returns
exactly the trades (maker 1, taker 4, px 101, qty 50) then (maker 2,
taker 4, px 102, qty 30); order 4 is fully filled (residual 0, no index
entry); afterwards the asks side contains only order 2 with quantity 10 at
price 102 and the bids side contains only order 3 with quantity 70 at 100. -/
theorem s2_scenario :
    (add_order s2Book3 ⟨4, Side.Buy, 102, 80⟩).1 =
      [⟨1, 4, 101, 50⟩, ⟨2, 4, 102, 30⟩] ∧
    (matchAsks ⟨4, Side.Buy, 102, 80⟩ s2Book3.asks).taker.qty = 0 ∧
    idxFind (add_order s2Book3 ⟨4, Side.Buy, 102, 80⟩).2.id_index 4 = none ∧
    (add_order s2Book3 ⟨4, Side.Buy, 102, 80⟩).2.asks =
      [(102, [⟨2, Side.Sell, 102, 10⟩])] ∧
    (add_order s2Book3 ⟨4, Side.Buy, 102, 80⟩).2.bids =
      [(100, [⟨3, Side.Buy, 100, 70⟩])] := by decide

/-- C5: FIFO within a price level — in scenario S4 the earlier arrival
(order 1) matches first and order 2 keeps the residual: the trades are
(1,3,101,10) then (2,3,101,5) and the asks side keeps only order 2 with
quantity 5 at price 101. -/
theorem s4_fifo_scenario :
    (add_order s4Book2 ⟨3, Side.Buy, 101, 15⟩).1 =
      [⟨1, 3, 101, 10⟩, ⟨2, 3, 101, 5⟩] ∧
    (add_order s4Book2 ⟨3, Side.Buy, 101, 15⟩).2.asks =
      [(101, [⟨2, Side.Sell, 101, 5⟩])] := by decide

/-- Draining a queue by repeated `try_pop` returns its contents in order. -/
theorem CQ.drain_eq {T : Type} (l : List T) (c : Bool) :
    CQ.drain l.length ⟨l, c⟩ = l := by
  induction l with
  | nil => rfl
  | cons v rest ih => simpa [CQ.drain, CQ.try_pop] using ih

/-- C8: for the `ConcurrentQueue`, a `push` after `close` silently drops
the value leaving the contents unchanged (its return type is `void`, so no
error is reported); `close` is idempotent; values enqueued before `close`
remain drainable — `try_pop` drains them in FIFO order, blocking `pop`
still returns the head — and blocking `pop` returns `false` exactly when
the queue is both closed and empty. -/
theorem cq_close_contract (T : Type) (s : CQState T) (v : T) :
    CQ.push (CQ.close s) v = CQ.close s ∧
    CQ.close (CQ.close s) = CQ.close s ∧
    CQ.drain s.q.length (CQ.close s) = s.q ∧
    (∀ w rest, s.q = w :: rest →
      CQ.pop (CQ.close s) = some (some w, CQ.close { s with q := rest })) ∧
    (s.q = [] → CQ.pop (CQ.close s) = some (none, CQ.close s)) ∧
    (∀ r s', CQ.pop s = some (r, s') → (r = none ↔ s.q = [] ∧ s.closed = true)) := by
  refine ⟨by simp [CQ.push, CQ.close], by simp [CQ.close], ?_, ?_, ?_, ?_⟩
  · have := CQ.drain_eq s.q true
    simpa [CQ.close] using this
  · intro w rest hq
    simp [CQ.pop, CQ.close, hq]
  · intro hq
    simp [CQ.pop, CQ.close, hq]
  · intro r s' hpop
    match hq : s.q with
    | [] =>
      rw [CQ.pop, hq] at hpop
      by_cases hc : s.closed = true
      · simp [hc] at hpop
        simp [hpop.1, hc]
      · simp [Bool.not_eq_true] at hc
        simp [hc] at hpop
    | w :: rest =>
      rw [CQ.pop, hq] at hpop
      simp at hpop
      obtain ⟨hr, h2⟩ := hpop
      subst hr
      simp [hq]

/-- C8 witness: the contract evaluated on the concrete queue ⟨[1, 2], open⟩
with pushed value 3, including the inner FIFO-pop and pop-false cases at
concrete inputs. -/
theorem cq_close_contract_witness :
    CQ.push (CQ.close (⟨[1, 2], false⟩ : CQState Nat)) 3 = CQ.close ⟨[1, 2], false⟩ ∧
    CQ.drain 2 (CQ.close (⟨[1, 2], false⟩ : CQState Nat)) = [1, 2] ∧
    CQ.pop (CQ.close (⟨[1, 2], false⟩ : CQState Nat)) =
      some (some 1, CQ.close ⟨[2], false⟩) ∧
    CQ.pop (CQ.close (⟨[], false⟩ : CQState Nat)) = some (none, CQ.close ⟨[], false⟩) ∧
    ((none : Option Nat) = none ↔ ([] : List Nat) = [] ∧ true = true) :=
  ⟨(cq_close_contract Nat ⟨[1, 2], false⟩ 3).1,
   (cq_close_contract Nat ⟨[1, 2], false⟩ 3).2.2.1,
   (cq_close_contract Nat ⟨[1, 2], false⟩ 3).2.2.2.1 1 [2] rfl,
   (cq_close_contract Nat ⟨[], false⟩ 3).2.2.2.2.1 rfl,
   (cq_close_contract Nat ⟨[], true⟩ 3).2.2.2.2.2 none ⟨[], true⟩ rfl⟩

/-- C9 (refuted by the code): the worker loop's `while (running_)` test
lets it exit without draining.  In this interleaving order 2 was accepted
by `push` before `close` was observed, yet after `shutdown()` returns
(`spc = done`) the worker has exited with order 2 still in the inbound
queue and the book has processed only order 1 — drain-before-exit is
violated. -/
theorem c9_drain_before_exit_violated :
    (execEngine c9Init c9Sched).spc = SPC.done ∧
    (execEngine c9Init c9Sched).wpc = WPC.exited ∧
    (execEngine c9Init c9Sched).inq.q = [⟨2, Side.Buy, 100, 10⟩] ∧
    (execEngine c9Init c9Sched).inq.closed = true ∧
    (execEngine c9Init c9Sched).book = (add_order emptyBook ⟨1, Side.Buy, 100, 10⟩).2 := by
  decide

end XChange

namespace XChange

/-! ### Inner-loop (`matchQueue`) lemmas -/

/-- The inner loop mutates only the incoming order's quantity. -/
theorem matchQueue_taker_fields (q : List Order) (tk : Order) :
    (matchQueue tk q).taker.id = tk.id ∧ (matchQueue tk q).taker.side = tk.side ∧
    (matchQueue tk q).taker.price = tk.price := by
  induction q generalizing tk with
  | nil => exact ⟨rfl, rfl, rfl⟩
  | cons resting rest ih =>
    simp only [matchQueue]
    split
    · split
      · exact ih _
      · exact ⟨rfl, rfl, rfl⟩
    · exact ⟨rfl, rfl, rfl⟩

/-- The ids of the queue split into the erased ids followed by the ids of
the remaining queue. -/
theorem matchQueue_ids (q : List Order) (tk : Order) :
    q.map Order.id =
      (matchQueue tk q).removed ++ (matchQueue tk q).queue.map Order.id := by
  induction q generalizing tk with
  | nil => rfl
  | cons resting rest ih =>
    simp only [matchQueue]
    split
    · split
      · simp only [List.map_cons, List.cons_append]
        exact congrArg (List.cons resting.id) (ih _)
      · rfl
    · rfl

/-- The remaining queue keeps the level's side/price discipline and strict
positivity. -/
theorem matchQueue_queueWF (s : Side) (p : Int) (q : List Order) (tk : Order)
    (h : QueueWF s p q) : QueueWF s p (matchQueue tk q).queue := by
  induction q generalizing tk with
  | nil => intro o ho; simp [matchQueue] at ho
  | cons resting rest ih =>
    simp only [matchQueue]
    split
    · split
      · exact ih _ (fun o ho => h o (List.mem_cons_of_mem _ ho))
      · rename_i hpos hne
        intro o ho
        rcases List.mem_cons.mp ho with rfl | ho
        · obtain ⟨h1, h2, h3⟩ := h resting (List.mem_cons_self _ _)
          refine ⟨h1, h2, ?_⟩
          simp only at hne ⊢
          have hmin : min tk.qty resting.qty ≤ resting.qty := min_le_right _ _
          omega
        · exact h o (List.mem_cons_of_mem _ ho)
    · exact h

/-- If the inner loop leaves its queue non-empty, the incoming order is out
of quantity (this is why the source's outer loop exits there). -/
theorem matchQueue_queue_ne_nil (q : List Order) (tk : Order)
    (h : (matchQueue tk q).queue ≠ []) : (matchQueue tk q).taker.qty ≤ 0 := by
  induction q generalizing tk with
  | nil => simp [matchQueue] at h
  | cons resting rest ih =>
    by_cases h1 : 0 < tk.qty
    · by_cases h2 : resting.qty - min tk.qty resting.qty = 0
      · simp only [matchQueue, if_pos h1, if_pos h2] at h ⊢
        exact ih _ h
      · simp only [matchQueue, if_pos h1, if_neg h2] at h ⊢
        rcases min_choice tk.qty resting.qty with h3 | h3 <;> simp [h3] at h2 ⊢
    · simp only [matchQueue, if_neg h1]
      omega

/-- Quantity bookkeeping of the inner loop: the taker loses exactly the
traded quantity and so does the queue. -/
theorem matchQueue_sums (q : List Order) (tk : Order) :
    (matchQueue tk q).taker.qty = tk.qty - tradedQty (matchQueue tk q).trades ∧
    qtySum (matchQueue tk q).queue = qtySum q - tradedQty (matchQueue tk q).trades := by
  induction q generalizing tk with
  | nil => simp [matchQueue, tradedQty, qtySum]
  | cons resting rest ih =>
    by_cases h1 : 0 < tk.qty
    · by_cases h2 : resting.qty - min tk.qty resting.qty = 0
      · have hih := ih { tk with qty := tk.qty - min tk.qty resting.qty }
        simp only [matchQueue, if_pos h1, if_pos h2, tradedQty, qtySum,
          List.map_cons, List.sum_cons] at hih ⊢
        obtain ⟨hihA, hihB⟩ := hih
        constructor
        · rw [hihA]; omega
        · rw [hihB]; simp only [qtySum, tradedQty] at h2 ⊢; omega
      · simp only [matchQueue, if_pos h1, if_neg h2, tradedQty, qtySum,
          List.map_cons, List.sum_cons, List.map_nil, List.sum_nil]
        constructor <;> ring_nf
    · simp [matchQueue, h1, tradedQty]

/-- The taker's quantity never becomes negative. -/
theorem matchQueue_taker_nonneg (q : List Order) (tk : Order) (h : 0 ≤ tk.qty) :
    0 ≤ (matchQueue tk q).taker.qty := by
  induction q generalizing tk with
  | nil => simpa [matchQueue]
  | cons resting rest ih =>
    by_cases h1 : 0 < tk.qty
    · by_cases h2 : resting.qty - min tk.qty resting.qty = 0
      · simp only [matchQueue, if_pos h1, if_pos h2]
        refine ih _ ?_
        have := min_le_left tk.qty resting.qty
        simp only
        omega
      · simp only [matchQueue, if_pos h1, if_neg h2]
        have := min_le_left tk.qty resting.qty
        omega
    · simpa [matchQueue, h1]

/-- Every trade of the inner loop carries the taker's id, a strictly
positive quantity, and the id and price of the resting maker it hit. -/
theorem matchQueue_trades (q : List Order) (tk : Order)
    (hq : ∀ o ∈ q, 0 < o.qty) :
    ∀ t ∈ (matchQueue tk q).trades,
      t.taker_id = tk.id ∧ 0 < t.qty ∧
      ∃ o ∈ q, t.maker_id = o.id ∧ t.price = o.price := by
  induction q generalizing tk with
  | nil => simp [matchQueue]
  | cons resting rest ih =>
    by_cases h1 : 0 < tk.qty
    · have hpos : 0 < min tk.qty resting.qty :=
        lt_min h1 (hq resting (List.mem_cons_self _ _))
      by_cases h2 : resting.qty - min tk.qty resting.qty = 0
      · intro t ht
        simp only [matchQueue, if_pos h1, if_pos h2, List.mem_cons] at ht
        rcases ht with rfl | ht
        · exact ⟨rfl, hpos, resting, List.mem_cons_self _ _, rfl, rfl⟩
        · obtain ⟨hA, hB, o, ho, hC, hD⟩ :=
            ih _ (fun o ho => hq o (List.mem_cons_of_mem _ ho)) t ht
          exact ⟨hA, hB, o, List.mem_cons_of_mem _ ho, hC, hD⟩
      · intro t ht
        simp only [matchQueue, if_pos h1, if_neg h2, List.mem_cons,
          List.not_mem_nil, or_false] at ht
        subst ht
        exact ⟨rfl, hpos, resting, List.mem_cons_self _ _, rfl, rfl⟩
    · simp [matchQueue, h1]

/-- Every order left in the queue is one of the original orders with only
its quantity possibly reduced. -/
theorem matchQueue_queue_orders (q : List Order) (tk : Order) :
    ∀ o ∈ (matchQueue tk q).queue,
      ∃ o₀ ∈ q, o.id = o₀.id ∧ o.side = o₀.side ∧ o.price = o₀.price := by
  induction q generalizing tk with
  | nil => simp [matchQueue]
  | cons resting rest ih =>
    by_cases h1 : 0 < tk.qty
    · by_cases h2 : resting.qty - min tk.qty resting.qty = 0
      · simp only [matchQueue, if_pos h1, if_pos h2]
        intro o ho
        obtain ⟨o₀, h₀, hA, hB, hC⟩ := ih _ o ho
        exact ⟨o₀, List.mem_cons_of_mem _ h₀, hA, hB, hC⟩
      · simp only [matchQueue, if_pos h1, if_neg h2]
        intro o ho
        rcases List.mem_cons.mp ho with rfl | ho
        · exact ⟨resting, List.mem_cons_self _ _, rfl, rfl, rfl⟩
        · exact ⟨o, List.mem_cons_of_mem _ ho, rfl, rfl, rfl⟩
    · simp only [matchQueue, if_neg h1]
      intro o ho
      exact ⟨o, ho, rfl, rfl, rfl⟩

end XChange

namespace XChange

/-! ### View lemmas: orders, entries, keys, lookup -/

theorem ordersOf_cons (l : Level) (ls : List Level) :
    ordersOf (l :: ls) = l.2 ++ ordersOf ls := by
  simp [ordersOf]

theorem idsOf_cons (l : Level) (ls : List Level) :
    idsOf (l :: ls) = l.2.map Order.id ++ idsOf ls := by
  simp [idsOf, ordersOf]

theorem entriesOf_cons (l : Level) (ls : List Level) :
    entriesOf (l :: ls) = l.2.map (fun o => (l.1, o)) ++ entriesOf ls := by
  simp [entriesOf]

theorem mem_ordersOf {o : Order} {ls : List Level} :
    o ∈ ordersOf ls ↔ ∃ l ∈ ls, o ∈ l.2 := by
  simp only [ordersOf, List.mem_flatten, List.mem_map]
  constructor
  · rintro ⟨s, ⟨l, hl, rfl⟩, hmem⟩
    exact ⟨l, hl, hmem⟩
  · rintro ⟨l, hl, hmem⟩
    exact ⟨l.2, ⟨l, hl, rfl⟩, hmem⟩

theorem mem_idsOf {i : Nat} {ls : List Level} :
    i ∈ idsOf ls ↔ ∃ o ∈ ordersOf ls, o.id = i := by
  simp [idsOf]

theorem mem_entriesOf {pe : Int × Order} {ls : List Level} :
    pe ∈ entriesOf ls ↔ ∃ l ∈ ls, l.1 = pe.1 ∧ pe.2 ∈ l.2 := by
  obtain ⟨p, o⟩ := pe
  simp only [entriesOf, List.mem_flatten, List.mem_map]
  constructor
  · rintro ⟨s, ⟨l, hl, rfl⟩, hmem⟩
    obtain ⟨o', ho', heq⟩ := List.mem_map.mp hmem
    obtain ⟨h1, h2⟩ := Prod.mk.injEq .. ▸ heq
    exact ⟨l, hl, h1, h2 ▸ ho'⟩
  · rintro ⟨l, hl, h1, h2⟩
    exact ⟨l.2.map (fun o => (l.1, o)), ⟨l, hl, rfl⟩, List.mem_map.mpr ⟨o, h2, by rw [h1]⟩⟩

theorem entriesOf_orders {pe : Int × Order} {ls : List Level}
    (h : pe ∈ entriesOf ls) : pe.2 ∈ ordersOf ls := by
  obtain ⟨l, hl, h1, h2⟩ := mem_entriesOf.mp h
  exact mem_ordersOf.mpr ⟨l, hl, h2⟩

theorem ordersOf_entries {o : Order} {ls : List Level} (h : o ∈ ordersOf ls) :
    ∃ p, (p, o) ∈ entriesOf ls := by
  obtain ⟨l, hl, hm⟩ := mem_ordersOf.mp h
  exact ⟨l.1, mem_entriesOf.mpr ⟨l, hl, rfl, hm⟩⟩

theorem lookupLevel_cons_eq {l : Level} {rest : List Level} {p : Int} (h : l.1 = p) :
    lookupLevel (l :: rest) p = some l.2 := by
  rw [lookupLevel, @List.find?_cons_of_pos _ (fun x => x.1 == p) l rest (by simp [h])]
  rfl

theorem lookupLevel_cons_ne {l : Level} {rest : List Level} {p : Int} (h : l.1 ≠ p) :
    lookupLevel (l :: rest) p = lookupLevel rest p := by
  rw [lookupLevel, @List.find?_cons_of_neg _ (fun x => x.1 == p) l rest (by simp [h])]
  rfl

theorem lookupLevel_eq_some {ls : List Level} {p : Int} {q : List Order}
    (h : lookupLevel ls p = some q) : (p, q) ∈ ls := by
  induction ls with
  | nil => simp [lookupLevel] at h
  | cons l rest ih =>
    by_cases hp : l.1 = p
    · rw [lookupLevel_cons_eq hp] at h
      have hq : q = l.2 := (Option.some.inj h).symm
      subst hq
      have hl : (p, l.2) = l := by
        rw [← hp]
      exact List.mem_cons.mpr (Or.inl hl)
    · rw [lookupLevel_cons_ne hp] at h
      exact List.mem_cons_of_mem _ (ih h)

theorem lookupLevel_mem {ls : List Level} (hnd : (keys ls).Nodup)
    {p : Int} {q : List Order} (h : (p, q) ∈ ls) : lookupLevel ls p = some q := by
  induction ls with
  | nil => simp at h
  | cons l rest ih =>
    simp only [keys, List.map_cons, List.nodup_cons] at hnd
    rcases List.mem_cons.mp h with rfl | h
    · simp [lookupLevel, List.find?_cons]
    · have hne : l.1 ≠ p := by
        intro hcontra
        exact hnd.1 (hcontra ▸ List.mem_map.mpr ⟨(p, q), h, rfl⟩)
      have hne' : (l.1 == p) = false := beq_eq_false_iff_ne.mpr hne
      simp only [lookupLevel, List.find?_cons, hne']
      exact ih hnd.2 h

theorem keys_nodup_of_pairwise {R : Int → Int → Prop} {ls : List Level}
    (hR : ∀ a b, R a b → a ≠ b) (h : ls.Pairwise (fun a b => R a.1 b.1)) :
    (keys ls).Nodup := by
  refine List.Pairwise.map (fun l => l.1) ?_ h
  exact fun a b hab => hR _ _ hab

theorem SortedAsc.keysNodupAsc {ls : List Level} (h : SortedAsc ls) : (keys ls).Nodup :=
  keys_nodup_of_pairwise (fun _ _ hab => ne_of_lt hab) h

theorem SortedDesc.keysNodupDesc {ls : List Level} (h : SortedDesc ls) : (keys ls).Nodup :=
  keys_nodup_of_pairwise (fun _ _ hab => (ne_of_lt hab).symm) h

/-! ### Index lemmas -/

theorem idxErase_mem {idx : IdIndex} {i : Nat} {e : Nat × Side × Int} :
    e ∈ idxErase idx i ↔ e ∈ idx ∧ e.1 ≠ i := by
  simp [idxErase, List.mem_filter]

theorem idxFind_cons_eq {e : Nat × Side × Int} {rest : IdIndex} {j : Nat} (h : e.1 = j) :
    idxFind (e :: rest) j = some e.2 := by
  rw [idxFind, @List.find?_cons_of_pos _ (fun x => x.1 == j) e rest (by simp [h])]
  rfl

theorem idxFind_cons_ne {e : Nat × Side × Int} {rest : IdIndex} {j : Nat} (h : e.1 ≠ j) :
    idxFind (e :: rest) j = idxFind rest j := by
  rw [idxFind, @List.find?_cons_of_neg _ (fun x => x.1 == j) e rest (by simp [h])]
  rfl

theorem idxFind_erase (idx : IdIndex) (i j : Nat) :
    idxFind (idxErase idx i) j = if j = i then none else idxFind idx j := by
  induction idx with
  | nil => simp [idxErase, idxFind]
  | cons e rest ih =>
    by_cases hei : e.1 = i
    · have hstep : idxErase (e :: rest) i = idxErase rest i := by
        simp [idxErase, List.filter_cons, hei]
      rw [hstep, ih]
      by_cases hji : j = i
      · simp [hji]
      · have hej : e.1 ≠ j := fun hc => hji (by rw [← hc, hei])
        rw [idxFind_cons_ne hej]
    · have hstep : idxErase (e :: rest) i = e :: idxErase rest i := by
        simp [idxErase, List.filter_cons, hei]
      rw [hstep]
      by_cases hej : e.1 = j
      · have hji : ¬ (j = i) := fun hc => hei (hej.trans hc)
        rw [idxFind_cons_eq hej, idxFind_cons_eq hej]
        simp [hji]
      · rw [idxFind_cons_ne hej, idxFind_cons_ne hej]
        exact ih

theorem idxFind_eraseAll (ids : List Nat) (idx : IdIndex) (j : Nat) :
    idxFind (idxEraseAll idx ids) j = if j ∈ ids then none else idxFind idx j := by
  induction ids generalizing idx with
  | nil => simp [idxEraseAll]
  | cons i rest ih =>
    have hstep : idxEraseAll idx (i :: rest) = idxEraseAll (idxErase idx i) rest := rfl
    rw [hstep, ih, idxFind_erase]
    by_cases hji : j = i
    · simp [hji]
    · by_cases hjr : j ∈ rest <;> simp [hji, hjr]

theorem idxFind_append_fresh (L : IdIndex) (i : Nat) (sp : Side × Int) (j : Nat)
    (hL : ∀ e ∈ L, e.1 ≠ i) :
    idxFind (L ++ [(i, sp)]) j = if j = i then some sp else idxFind L j := by
  induction L with
  | nil =>
    by_cases hji : j = i
    · simp [idxFind, List.find?_cons, hji]
    · have : (i == j) = false := beq_eq_false_iff_ne.mpr (fun hc => hji hc.symm)
      simp [idxFind, List.find?_cons, this, hji]
  | cons e rest ih =>
    rw [List.cons_append]
    by_cases hej : e.1 = j
    · have hji : ¬ (j = i) := fun hc => hL e (List.mem_cons_self _ _) (hej.trans hc)
      rw [idxFind_cons_eq hej, idxFind_cons_eq hej]
      simp [hji]
    · rw [idxFind_cons_ne hej, idxFind_cons_ne hej]
      exact ih (fun e he => hL e (List.mem_cons_of_mem _ he))

theorem idxFind_insert (idx : IdIndex) (i : Nat) (sp : Side × Int) (j : Nat) :
    idxFind (idxInsert idx i sp) j = if j = i then some sp else idxFind idx j := by
  rw [idxInsert, idxFind_append_fresh _ _ _ _ (fun e he => (idxErase_mem.mp he).2)]
  by_cases hji : j = i
  · simp [hji]
  · simp only [hji, if_false]
    rw [idxFind_erase]
    simp [hji]

theorem idxFind_mem {idx : IdIndex} {i : Nat} {sp : Side × Int}
    (h : idxFind idx i = some sp) : (i, sp) ∈ idx := by
  simp only [idxFind, Option.map_eq_some'] at h
  obtain ⟨e, he, rfl⟩ := h
  have hmem := List.mem_of_find?_eq_some he
  have hp := List.find?_some he
  have : e.1 = i := beq_iff_eq.mp hp
  rw [← this]
  exact hmem

theorem mem_idxFind_ne_none {idx : IdIndex} {e : Nat × Side × Int}
    (h : e ∈ idx) : idxFind idx e.1 ≠ none := by
  intro hnone
  rw [idxFind, Option.map_eq_none', List.find?_eq_none] at hnone
  exact hnone e h (beq_self_eq_true e.1)

end XChange

namespace XChange

/-! ### Small algebra on views -/

theorem levelsQty_cons (l : Level) (ls : List Level) :
    levelsQty (l :: ls) = qtySum l.2 + levelsQty ls := by
  simp [levelsQty]

theorem tradedQty_append (a b : List Trade) :
    tradedQty (a ++ b) = tradedQty a + tradedQty b := by
  simp [tradedQty]

theorem qtySum_cons (o : Order) (q : List Order) :
    qtySum (o :: q) = o.qty + qtySum q := by
  simp [qtySum]

/-! ### Outer-loop (`matchAsks`) lemmas -/

/-- The outer loop mutates only the incoming order's quantity. -/
theorem matchAsks_taker_fields (ls : List Level) (tk : Order) :
    (matchAsks tk ls).taker.id = tk.id ∧ (matchAsks tk ls).taker.side = tk.side ∧
    (matchAsks tk ls).taker.price = tk.price := by
  induction ls generalizing tk with
  | nil => exact ⟨rfl, rfl, rfl⟩
  | cons hd rest ih =>
    obtain ⟨px, q⟩ := hd
    simp only [matchAsks]
    split
    · split
      · exact ⟨rfl, rfl, rfl⟩
      · split
        · obtain ⟨hA, hB, hC⟩ := ih (matchQueue tk q).taker
          obtain ⟨hD, hE, hF⟩ := matchQueue_taker_fields q tk
          exact ⟨hA.trans hD, hB.trans hE, hC.trans hF⟩
        · exact matchQueue_taker_fields q tk
    · exact ⟨rfl, rfl, rfl⟩

/-- The ids of the ladder split into the erased ids followed by the ids of
the remaining ladder. -/
theorem matchAsks_ids (ls : List Level) (tk : Order) :
    idsOf ls = (matchAsks tk ls).removed ++ idsOf (matchAsks tk ls).levels := by
  induction ls generalizing tk with
  | nil => rfl
  | cons hd rest ih =>
    obtain ⟨px, q⟩ := hd
    simp only [matchAsks]
    split
    · split
      · rfl
      · split
        · rename_i hq
          have hqnil : (matchQueue tk q).queue = [] := by simpa using hq
          rw [idsOf_cons, matchQueue_ids q tk, hqnil, ih (matchQueue tk q).taker]
          simp
        · rw [idsOf_cons, idsOf_cons, matchQueue_ids q tk, List.append_assoc]
    · rfl

/-- Ladder well-formedness survives the crossing loop. -/
theorem matchAsks_ladderWF (ls : List Level) (tk : Order)
    (h : LadderWF Side.Sell ls) : LadderWF Side.Sell (matchAsks tk ls).levels := by
  induction ls generalizing tk with
  | nil => intro l hl; simp [matchAsks] at hl
  | cons hd rest ih =>
    obtain ⟨px, q⟩ := hd
    simp only [matchAsks]
    split
    · split
      · exact h
      · split
        · exact ih _ (fun l hl => h l (List.mem_cons_of_mem _ hl))
        · rename_i hq
          intro l hl
          rcases List.mem_cons.mp hl with rfl | hl
          · refine ⟨by simpa using hq, ?_⟩
            exact matchQueue_queueWF _ _ q tk (h (px, q) (List.mem_cons_self _ _)).2
          · exact h l (List.mem_cons_of_mem _ hl)
    · exact h

/-- Sortedness of the ask ladder survives the crossing loop. -/
theorem matchAsks_sorted (ls : List Level) (tk : Order)
    (h : SortedAsc ls) : SortedAsc (matchAsks tk ls).levels := by
  induction ls generalizing tk with
  | nil => exact List.Pairwise.nil
  | cons hd rest ih =>
    obtain ⟨px, q⟩ := hd
    simp only [matchAsks]
    split
    · split
      · exact h
      · split
        · exact ih _ (List.pairwise_cons.mp h).2
        · exact List.pairwise_cons.mpr
            ⟨fun l' hl' => (List.pairwise_cons.mp h).1 l' hl', (List.pairwise_cons.mp h).2⟩
    · exact h

/-- If the taker still has quantity after the crossing loop, its limit is
strictly below every remaining ask level (the loop stopped on the
crossability test or exhausted the ladder). -/
theorem matchAsks_rest_price (ls : List Level) (tk : Order)
    (hs : SortedAsc ls) (h : 0 < (matchAsks tk ls).taker.qty) :
    ∀ pa ∈ keys (matchAsks tk ls).levels, tk.price < pa := by
  induction ls generalizing tk with
  | nil => intro pa hpa; simp [matchAsks, keys] at hpa
  | cons hd rest ih =>
    obtain ⟨px, q⟩ := hd
    by_cases h1 : 0 < tk.qty
    · by_cases h2 : tk.price < px
      · simp only [matchAsks, if_pos h1, if_pos h2]
        intro pa hpa
        simp only [keys, List.map_cons, List.mem_cons] at hpa
        rcases hpa with rfl | hpa
        · exact h2
        · obtain ⟨l', hl', rfl⟩ := List.mem_map.mp hpa
          exact lt_trans h2 ((List.pairwise_cons.mp hs).1 l' hl')
      · by_cases h3 : (matchQueue tk q).queue.isEmpty
        · simp only [matchAsks, if_pos h1, if_neg h2, if_pos h3] at h ⊢
          intro pa hpa
          have hres := ih (matchQueue tk q).taker (List.pairwise_cons.mp hs).2 h pa hpa
          rwa [(matchQueue_taker_fields q tk).2.2] at hres
        · simp only [matchAsks, if_pos h1, if_neg h2, if_neg h3] at h
          have hng := matchQueue_queue_ne_nil q tk (by simpa using h3)
          omega
    · simp only [matchAsks, if_neg h1] at h
      omega

/-- Quantity bookkeeping of the outer loop. -/
theorem matchAsks_sums (ls : List Level) (tk : Order) :
    (matchAsks tk ls).taker.qty = tk.qty - tradedQty (matchAsks tk ls).trades ∧
    levelsQty (matchAsks tk ls).levels = levelsQty ls - tradedQty (matchAsks tk ls).trades := by
  induction ls generalizing tk with
  | nil => simp [matchAsks, tradedQty, levelsQty]
  | cons hd rest ih =>
    obtain ⟨px, q⟩ := hd
    by_cases h1 : 0 < tk.qty
    · by_cases h2 : tk.price < px
      · simp [matchAsks, if_pos h1, if_pos h2, tradedQty]
      · obtain ⟨hq1, hq2⟩ := matchQueue_sums q tk
        by_cases h3 : (matchQueue tk q).queue.isEmpty
        · have hqnil : (matchQueue tk q).queue = [] := by simpa using h3
          obtain ⟨hih1, hih2⟩ := ih (matchQueue tk q).taker
          simp only [matchAsks, if_pos h1, if_neg h2, if_pos h3, tradedQty_append,
            levelsQty_cons]
          rw [hqnil, qtySum] at hq2
          simp only [List.map_nil, List.sum_nil] at hq2
          constructor
          · rw [hih1, hq1]; omega
          · rw [hih2]; omega
        · simp only [matchAsks, if_pos h1, if_neg h2, if_neg h3, levelsQty_cons]
          exact ⟨hq1, by rw [hq2]; omega⟩
    · simp [matchAsks, if_neg h1, tradedQty]

/-- The taker's quantity never becomes negative across the outer loop. -/
theorem matchAsks_taker_nonneg (ls : List Level) (tk : Order) (h : 0 ≤ tk.qty) :
    0 ≤ (matchAsks tk ls).taker.qty := by
  induction ls generalizing tk with
  | nil => simpa [matchAsks]
  | cons hd rest ih =>
    obtain ⟨px, q⟩ := hd
    by_cases h1 : 0 < tk.qty
    · by_cases h2 : tk.price < px
      · simpa [matchAsks, if_pos h1, if_pos h2]
      · by_cases h3 : (matchQueue tk q).queue.isEmpty
        · simp only [matchAsks, if_pos h1, if_neg h2, if_pos h3]
          exact ih _ (matchQueue_taker_nonneg q tk h)
        · simp only [matchAsks, if_pos h1, if_neg h2, if_neg h3]
          exact matchQueue_taker_nonneg q tk h
    · simpa [matchAsks, if_neg h1]

/-- Every trade of the outer loop carries the taker's id, a strictly
positive quantity, and the id and price of a resting maker. -/
theorem matchAsks_trades (ls : List Level) (tk : Order)
    (hWF : LadderWF Side.Sell ls) :
    ∀ t ∈ (matchAsks tk ls).trades,
      t.taker_id = tk.id ∧ 0 < t.qty ∧
      ∃ o ∈ ordersOf ls, t.maker_id = o.id ∧ t.price = o.price := by
  induction ls generalizing tk with
  | nil => simp [matchAsks]
  | cons hd rest ih =>
    obtain ⟨px, q⟩ := hd
    have hq : ∀ o ∈ q, 0 < o.qty :=
      fun o ho => ((hWF (px, q) (List.mem_cons_self _ _)).2 o ho).2.2
    by_cases h1 : 0 < tk.qty
    · by_cases h2 : tk.price < px
      · simp [matchAsks, if_pos h1, if_pos h2]
      · by_cases h3 : (matchQueue tk q).queue.isEmpty
        · simp only [matchAsks, if_pos h1, if_neg h2, if_pos h3, List.mem_append]
          intro t ht
          rcases ht with ht | ht
          · obtain ⟨hA, hB, o, ho, hC, hD⟩ := matchQueue_trades q tk hq t ht
            exact ⟨hA, hB, o, by rw [ordersOf_cons]; exact List.mem_append_left _ ho, hC, hD⟩
          · obtain ⟨hA, hB, o, ho, hC, hD⟩ :=
              ih _ (fun l hl => hWF l (List.mem_cons_of_mem _ hl)) t ht
            refine ⟨hA.trans (matchQueue_taker_fields q tk).1, hB, o, ?_, hC, hD⟩
            rw [ordersOf_cons]
            exact List.mem_append_right _ ho
        · simp only [matchAsks, if_pos h1, if_neg h2, if_neg h3]
          intro t ht
          obtain ⟨hA, hB, o, ho, hC, hD⟩ := matchQueue_trades q tk hq t ht
          exact ⟨hA, hB, o, by rw [ordersOf_cons]; exact List.mem_append_left _ ho, hC, hD⟩
    · simp [matchAsks, if_neg h1]

/-- Every order resting after the crossing loop descends, at its own level
price, from an order resting there before with the same id, side and price. -/
theorem matchAsks_entries (ls : List Level) (tk : Order) :
    ∀ pe ∈ entriesOf (matchAsks tk ls).levels,
      ∃ o₀, (pe.1, o₀) ∈ entriesOf ls ∧ pe.2.id = o₀.id ∧ pe.2.side = o₀.side ∧
        pe.2.price = o₀.price := by
  induction ls generalizing tk with
  | nil => simp [matchAsks, entriesOf]
  | cons hd rest ih =>
    obtain ⟨px, q⟩ := hd
    by_cases h1 : 0 < tk.qty
    · by_cases h2 : tk.price < px
      · simp only [matchAsks, if_pos h1, if_pos h2]
        exact fun pe hpe => ⟨pe.2, hpe, rfl, rfl, rfl⟩
      · by_cases h3 : (matchQueue tk q).queue.isEmpty
        · simp only [matchAsks, if_pos h1, if_neg h2, if_pos h3]
          intro pe hpe
          obtain ⟨o₀, h₀, hA, hB, hC⟩ := ih (matchQueue tk q).taker pe hpe
          refine ⟨o₀, ?_, hA, hB, hC⟩
          rw [entriesOf_cons]
          exact List.mem_append_right _ h₀
        · simp only [matchAsks, if_pos h1, if_neg h2, if_neg h3]
          intro pe hpe
          rw [entriesOf_cons] at hpe
          rcases List.mem_append.mp hpe with hpe | hpe
          · obtain ⟨o, ho, rfl⟩ := List.mem_map.mp hpe
            obtain ⟨o₀, h₀, hA, hB, hC⟩ := matchQueue_queue_orders q tk o ho
            refine ⟨o₀, ?_, hA, hB, hC⟩
            rw [entriesOf_cons]
            exact List.mem_append_left _ (List.mem_map.mpr ⟨o₀, h₀, rfl⟩)
          · refine ⟨pe.2, ?_, rfl, rfl, rfl⟩
            rw [entriesOf_cons]
            exact List.mem_append_right _ hpe
    · simp only [matchAsks, if_neg h1]
      exact fun pe hpe => ⟨pe.2, hpe, rfl, rfl, rfl⟩

/-- A resting order whose id the crossing loop did not erase survives at
its level (with the same id). -/
theorem matchAsks_entries_survive (ls : List Level) (tk : Order) :
    ∀ p o₀, (p, o₀) ∈ entriesOf ls → o₀.id ∉ (matchAsks tk ls).removed →
      ∃ o, (p, o) ∈ entriesOf (matchAsks tk ls).levels ∧ o.id = o₀.id := by
  induction ls generalizing tk with
  | nil => simp [entriesOf]
  | cons hd rest ih =>
    obtain ⟨px, q⟩ := hd
    by_cases h1 : 0 < tk.qty
    · by_cases h2 : tk.price < px
      · simp only [matchAsks, if_pos h1, if_pos h2]
        exact fun p o₀ hmem _ => ⟨o₀, hmem, rfl⟩
      · by_cases h3 : (matchQueue tk q).queue.isEmpty
        · simp only [matchAsks, if_pos h1, if_neg h2, if_pos h3, List.mem_append]
          intro p o₀ hmem hnotin
          push_neg at hnotin
          rw [entriesOf_cons] at hmem
          rcases List.mem_append.mp hmem with hmem | hmem
          · exfalso
            obtain ⟨o, ho, heq⟩ := List.mem_map.mp hmem
            have hoo : o = o₀ := congrArg Prod.snd heq
            rw [hoo] at ho
            have hid : o₀.id ∈ q.map Order.id := List.mem_map.mpr ⟨o₀, ho, rfl⟩
            rw [matchQueue_ids q tk] at hid
            rw [show (matchQueue tk q).queue = [] from by simpa using h3] at hid
            simp only [List.map_nil, List.append_nil] at hid
            exact hnotin.1 hid
          · obtain ⟨o, hoA, hoB⟩ := ih (matchQueue tk q).taker p o₀ hmem hnotin.2
            exact ⟨o, hoA, hoB⟩
        · simp only [matchAsks, if_pos h1, if_neg h2, if_neg h3]
          intro p o₀ hmem hnotin
          rw [entriesOf_cons] at hmem
          rcases List.mem_append.mp hmem with hmem | hmem
          · obtain ⟨o, ho, heq⟩ := List.mem_map.mp hmem
            have hpx : px = p := congrArg Prod.fst heq
            have hoo : o = o₀ := congrArg Prod.snd heq
            rw [hoo] at ho
            have hid : o₀.id ∈ q.map Order.id := List.mem_map.mpr ⟨o₀, ho, rfl⟩
            rw [matchQueue_ids q tk] at hid
            rcases List.mem_append.mp hid with hid | hid
            · exact absurd hid hnotin
            · obtain ⟨o', ho', hid'⟩ := List.mem_map.mp hid
              refine ⟨o', ?_, hid'⟩
              rw [entriesOf_cons]
              exact List.mem_append_left _ (List.mem_map.mpr ⟨o', ho', by rw [hpx]⟩)
          · refine ⟨o₀, ?_, rfl⟩
            rw [entriesOf_cons]
            exact List.mem_append_right _ hmem
    · simp only [matchAsks, if_neg h1]
      exact fun p o₀ hmem _ => ⟨o₀, hmem, rfl⟩

end XChange

namespace XChange

/-! ### Outer-loop (`matchBids`) lemmas — mirror images of the ask side -/

theorem matchBids_taker_fields (ls : List Level) (tk : Order) :
    (matchBids tk ls).taker.id = tk.id ∧ (matchBids tk ls).taker.side = tk.side ∧
    (matchBids tk ls).taker.price = tk.price := by
  induction ls generalizing tk with
  | nil => exact ⟨rfl, rfl, rfl⟩
  | cons hd rest ih =>
    obtain ⟨px, q⟩ := hd
    simp only [matchBids]
    split
    · split
      · exact ⟨rfl, rfl, rfl⟩
      · split
        · obtain ⟨hA, hB, hC⟩ := ih (matchQueue tk q).taker
          obtain ⟨hD, hE, hF⟩ := matchQueue_taker_fields q tk
          exact ⟨hA.trans hD, hB.trans hE, hC.trans hF⟩
        · exact matchQueue_taker_fields q tk
    · exact ⟨rfl, rfl, rfl⟩

theorem matchBids_ids (ls : List Level) (tk : Order) :
    idsOf ls = (matchBids tk ls).removed ++ idsOf (matchBids tk ls).levels := by
  induction ls generalizing tk with
  | nil => rfl
  | cons hd rest ih =>
    obtain ⟨px, q⟩ := hd
    simp only [matchBids]
    split
    · split
      · rfl
      · split
        · rename_i hq
          have hqnil : (matchQueue tk q).queue = [] := by simpa using hq
          rw [idsOf_cons, matchQueue_ids q tk, hqnil, ih (matchQueue tk q).taker]
          simp
        · rw [idsOf_cons, idsOf_cons, matchQueue_ids q tk, List.append_assoc]
    · rfl

theorem matchBids_ladderWF (ls : List Level) (tk : Order)
    (h : LadderWF Side.Buy ls) : LadderWF Side.Buy (matchBids tk ls).levels := by
  induction ls generalizing tk with
  | nil => intro l hl; simp [matchBids] at hl
  | cons hd rest ih =>
    obtain ⟨px, q⟩ := hd
    simp only [matchBids]
    split
    · split
      · exact h
      · split
        · exact ih _ (fun l hl => h l (List.mem_cons_of_mem _ hl))
        · rename_i hq
          intro l hl
          rcases List.mem_cons.mp hl with rfl | hl
          · refine ⟨by simpa using hq, ?_⟩
            exact matchQueue_queueWF _ _ q tk (h (px, q) (List.mem_cons_self _ _)).2
          · exact h l (List.mem_cons_of_mem _ hl)
    · exact h

theorem matchBids_sorted (ls : List Level) (tk : Order)
    (h : SortedDesc ls) : SortedDesc (matchBids tk ls).levels := by
  induction ls generalizing tk with
  | nil => exact List.Pairwise.nil
  | cons hd rest ih =>
    obtain ⟨px, q⟩ := hd
    simp only [matchBids]
    split
    · split
      · exact h
      · split
        · exact ih _ (List.pairwise_cons.mp h).2
        · exact List.pairwise_cons.mpr
            ⟨fun l' hl' => (List.pairwise_cons.mp h).1 l' hl', (List.pairwise_cons.mp h).2⟩
    · exact h

/-- If the taker still has quantity after crossing the bids, its limit is
strictly above every remaining bid level. -/
theorem matchBids_rest_price (ls : List Level) (tk : Order)
    (hs : SortedDesc ls) (h : 0 < (matchBids tk ls).taker.qty) :
    ∀ pb ∈ keys (matchBids tk ls).levels, pb < tk.price := by
  induction ls generalizing tk with
  | nil => intro pb hpb; simp [matchBids, keys] at hpb
  | cons hd rest ih =>
    obtain ⟨px, q⟩ := hd
    by_cases h1 : 0 < tk.qty
    · by_cases h2 : px < tk.price
      · simp only [matchBids, if_pos h1, if_pos h2]
        intro pb hpb
        simp only [keys, List.map_cons, List.mem_cons] at hpb
        rcases hpb with rfl | hpb
        · exact h2
        · obtain ⟨l', hl', rfl⟩ := List.mem_map.mp hpb
          exact lt_trans ((List.pairwise_cons.mp hs).1 l' hl') h2
      · by_cases h3 : (matchQueue tk q).queue.isEmpty
        · simp only [matchBids, if_pos h1, if_neg h2, if_pos h3] at h ⊢
          intro pb hpb
          have hres := ih (matchQueue tk q).taker (List.pairwise_cons.mp hs).2 h pb hpb
          rwa [(matchQueue_taker_fields q tk).2.2] at hres
        · simp only [matchBids, if_pos h1, if_neg h2, if_neg h3] at h
          have hng := matchQueue_queue_ne_nil q tk (by simpa using h3)
          omega
    · simp only [matchBids, if_neg h1] at h
      omega

theorem matchBids_sums (ls : List Level) (tk : Order) :
    (matchBids tk ls).taker.qty = tk.qty - tradedQty (matchBids tk ls).trades ∧
    levelsQty (matchBids tk ls).levels = levelsQty ls - tradedQty (matchBids tk ls).trades := by
  induction ls generalizing tk with
  | nil => simp [matchBids, tradedQty, levelsQty]
  | cons hd rest ih =>
    obtain ⟨px, q⟩ := hd
    by_cases h1 : 0 < tk.qty
    · by_cases h2 : px < tk.price
      · simp [matchBids, if_pos h1, if_pos h2, tradedQty]
      · obtain ⟨hq1, hq2⟩ := matchQueue_sums q tk
        by_cases h3 : (matchQueue tk q).queue.isEmpty
        · have hqnil : (matchQueue tk q).queue = [] := by simpa using h3
          obtain ⟨hih1, hih2⟩ := ih (matchQueue tk q).taker
          simp only [matchBids, if_pos h1, if_neg h2, if_pos h3, tradedQty_append,
            levelsQty_cons]
          rw [hqnil, qtySum] at hq2
          simp only [List.map_nil, List.sum_nil] at hq2
          constructor
          · rw [hih1, hq1]; omega
          · rw [hih2]; omega
        · simp only [matchBids, if_pos h1, if_neg h2, if_neg h3, levelsQty_cons]
          exact ⟨hq1, by rw [hq2]; omega⟩
    · simp [matchBids, if_neg h1, tradedQty]

theorem matchBids_taker_nonneg (ls : List Level) (tk : Order) (h : 0 ≤ tk.qty) :
    0 ≤ (matchBids tk ls).taker.qty := by
  induction ls generalizing tk with
  | nil => simpa [matchBids]
  | cons hd rest ih =>
    obtain ⟨px, q⟩ := hd
    by_cases h1 : 0 < tk.qty
    · by_cases h2 : px < tk.price
      · simpa [matchBids, if_pos h1, if_pos h2]
      · by_cases h3 : (matchQueue tk q).queue.isEmpty
        · simp only [matchBids, if_pos h1, if_neg h2, if_pos h3]
          exact ih _ (matchQueue_taker_nonneg q tk h)
        · simp only [matchBids, if_pos h1, if_neg h2, if_neg h3]
          exact matchQueue_taker_nonneg q tk h
    · simpa [matchBids, if_neg h1]

theorem matchBids_trades (ls : List Level) (tk : Order)
    (hWF : LadderWF Side.Buy ls) :
    ∀ t ∈ (matchBids tk ls).trades,
      t.taker_id = tk.id ∧ 0 < t.qty ∧
      ∃ o ∈ ordersOf ls, t.maker_id = o.id ∧ t.price = o.price := by
  induction ls generalizing tk with
  | nil => simp [matchBids]
  | cons hd rest ih =>
    obtain ⟨px, q⟩ := hd
    have hq : ∀ o ∈ q, 0 < o.qty :=
      fun o ho => ((hWF (px, q) (List.mem_cons_self _ _)).2 o ho).2.2
    by_cases h1 : 0 < tk.qty
    · by_cases h2 : px < tk.price
      · simp [matchBids, if_pos h1, if_pos h2]
      · by_cases h3 : (matchQueue tk q).queue.isEmpty
        · simp only [matchBids, if_pos h1, if_neg h2, if_pos h3, List.mem_append]
          intro t ht
          rcases ht with ht | ht
          · obtain ⟨hA, hB, o, ho, hC, hD⟩ := matchQueue_trades q tk hq t ht
            exact ⟨hA, hB, o, by rw [ordersOf_cons]; exact List.mem_append_left _ ho, hC, hD⟩
          · obtain ⟨hA, hB, o, ho, hC, hD⟩ :=
              ih _ (fun l hl => hWF l (List.mem_cons_of_mem _ hl)) t ht
            refine ⟨hA.trans (matchQueue_taker_fields q tk).1, hB, o, ?_, hC, hD⟩
            rw [ordersOf_cons]
            exact List.mem_append_right _ ho
        · simp only [matchBids, if_pos h1, if_neg h2, if_neg h3]
          intro t ht
          obtain ⟨hA, hB, o, ho, hC, hD⟩ := matchQueue_trades q tk hq t ht
          exact ⟨hA, hB, o, by rw [ordersOf_cons]; exact List.mem_append_left _ ho, hC, hD⟩
    · simp [matchBids, if_neg h1]

theorem matchBids_entries (ls : List Level) (tk : Order) :
    ∀ pe ∈ entriesOf (matchBids tk ls).levels,
      ∃ o₀, (pe.1, o₀) ∈ entriesOf ls ∧ pe.2.id = o₀.id ∧ pe.2.side = o₀.side ∧
        pe.2.price = o₀.price := by
  induction ls generalizing tk with
  | nil => simp [matchBids, entriesOf]
  | cons hd rest ih =>
    obtain ⟨px, q⟩ := hd
    by_cases h1 : 0 < tk.qty
    · by_cases h2 : px < tk.price
      · simp only [matchBids, if_pos h1, if_pos h2]
        exact fun pe hpe => ⟨pe.2, hpe, rfl, rfl, rfl⟩
      · by_cases h3 : (matchQueue tk q).queue.isEmpty
        · simp only [matchBids, if_pos h1, if_neg h2, if_pos h3]
          intro pe hpe
          obtain ⟨o₀, h₀, hA, hB, hC⟩ := ih (matchQueue tk q).taker pe hpe
          refine ⟨o₀, ?_, hA, hB, hC⟩
          rw [entriesOf_cons]
          exact List.mem_append_right _ h₀
        · simp only [matchBids, if_pos h1, if_neg h2, if_neg h3]
          intro pe hpe
          rw [entriesOf_cons] at hpe
          rcases List.mem_append.mp hpe with hpe | hpe
          · obtain ⟨o, ho, rfl⟩ := List.mem_map.mp hpe
            obtain ⟨o₀, h₀, hA, hB, hC⟩ := matchQueue_queue_orders q tk o ho
            refine ⟨o₀, ?_, hA, hB, hC⟩
            rw [entriesOf_cons]
            exact List.mem_append_left _ (List.mem_map.mpr ⟨o₀, h₀, rfl⟩)
          · refine ⟨pe.2, ?_, rfl, rfl, rfl⟩
            rw [entriesOf_cons]
            exact List.mem_append_right _ hpe
    · simp only [matchBids, if_neg h1]
      exact fun pe hpe => ⟨pe.2, hpe, rfl, rfl, rfl⟩

theorem matchBids_entries_survive (ls : List Level) (tk : Order) :
    ∀ p o₀, (p, o₀) ∈ entriesOf ls → o₀.id ∉ (matchBids tk ls).removed →
      ∃ o, (p, o) ∈ entriesOf (matchBids tk ls).levels ∧ o.id = o₀.id := by
  induction ls generalizing tk with
  | nil => simp [entriesOf]
  | cons hd rest ih =>
    obtain ⟨px, q⟩ := hd
    by_cases h1 : 0 < tk.qty
    · by_cases h2 : px < tk.price
      · simp only [matchBids, if_pos h1, if_pos h2]
        exact fun p o₀ hmem _ => ⟨o₀, hmem, rfl⟩
      · by_cases h3 : (matchQueue tk q).queue.isEmpty
        · simp only [matchBids, if_pos h1, if_neg h2, if_pos h3, List.mem_append]
          intro p o₀ hmem hnotin
          push_neg at hnotin
          rw [entriesOf_cons] at hmem
          rcases List.mem_append.mp hmem with hmem | hmem
          · exfalso
            obtain ⟨o, ho, heq⟩ := List.mem_map.mp hmem
            have hoo : o = o₀ := congrArg Prod.snd heq
            rw [hoo] at ho
            have hid : o₀.id ∈ q.map Order.id := List.mem_map.mpr ⟨o₀, ho, rfl⟩
            rw [matchQueue_ids q tk] at hid
            rw [show (matchQueue tk q).queue = [] from by simpa using h3] at hid
            simp only [List.map_nil, List.append_nil] at hid
            exact hnotin.1 hid
          · obtain ⟨o, hoA, hoB⟩ := ih (matchQueue tk q).taker p o₀ hmem hnotin.2
            exact ⟨o, hoA, hoB⟩
        · simp only [matchBids, if_pos h1, if_neg h2, if_neg h3]
          intro p o₀ hmem hnotin
          rw [entriesOf_cons] at hmem
          rcases List.mem_append.mp hmem with hmem | hmem
          · obtain ⟨o, ho, heq⟩ := List.mem_map.mp hmem
            have hpx : px = p := congrArg Prod.fst heq
            have hoo : o = o₀ := congrArg Prod.snd heq
            rw [hoo] at ho
            have hid : o₀.id ∈ q.map Order.id := List.mem_map.mpr ⟨o₀, ho, rfl⟩
            rw [matchQueue_ids q tk] at hid
            rcases List.mem_append.mp hid with hid | hid
            · exact absurd hid hnotin
            · obtain ⟨o', ho', hid'⟩ := List.mem_map.mp hid
              refine ⟨o', ?_, hid'⟩
              rw [entriesOf_cons]
              exact List.mem_append_left _ (List.mem_map.mpr ⟨o', ho', by rw [hpx]⟩)
          · refine ⟨o₀, ?_, rfl⟩
            rw [entriesOf_cons]
            exact List.mem_append_right _ hmem
    · simp only [matchBids, if_neg h1]
      exact fun p o₀ hmem _ => ⟨o₀, hmem, rfl⟩

end XChange

namespace XChange

/-! ### Ladder-insertion (`insertAsk`) lemmas -/

theorem insertAsk_keys (o : Order) (ls : List Level) :
    keys (insertAsk o ls) ⊆ o.price :: keys ls := by
  induction ls with
  | nil => intro x hx; simpa [insertAsk, keys] using hx
  | cons hd rest ih =>
    obtain ⟨px, q⟩ := hd
    intro x hx
    by_cases h1 : o.price < px
    · simp only [insertAsk, if_pos h1, keys, List.map_cons, List.mem_cons] at hx ⊢
      tauto
    · by_cases h2 : o.price = px
      · simp only [insertAsk, if_neg h1, if_pos h2, keys, List.map_cons, List.mem_cons] at hx ⊢
        tauto
      · simp only [insertAsk, if_neg h1, if_neg h2, keys, List.map_cons, List.mem_cons] at hx ⊢
        rcases hx with rfl | hx
        · tauto
        · rcases List.mem_cons.mp (ih hx) with rfl | h
          · tauto
          · exact Or.inr (Or.inr h)

theorem insertAsk_sorted (o : Order) (ls : List Level) (h : SortedAsc ls) :
    SortedAsc (insertAsk o ls) := by
  induction ls with
  | nil => simp [insertAsk, SortedAsc]
  | cons hd rest ih =>
    obtain ⟨px, q⟩ := hd
    by_cases h1 : o.price < px
    · simp only [insertAsk, if_pos h1]
      refine List.pairwise_cons.mpr ⟨?_, h⟩
      intro l' hl'
      rcases List.mem_cons.mp hl' with rfl | hl'
      · exact h1
      · exact lt_trans h1 ((List.pairwise_cons.mp h).1 l' hl')
    · by_cases h2 : o.price = px
      · simp only [insertAsk, if_neg h1, if_pos h2]
        exact List.pairwise_cons.mpr
          ⟨fun l' hl' => (List.pairwise_cons.mp h).1 l' hl', (List.pairwise_cons.mp h).2⟩
      · simp only [insertAsk, if_neg h1, if_neg h2]
        refine List.pairwise_cons.mpr ⟨?_, ih (List.pairwise_cons.mp h).2⟩
        intro l' hl'
        have hx : l'.1 ∈ keys (insertAsk o rest) := List.mem_map.mpr ⟨l', hl', rfl⟩
        rcases List.mem_cons.mp (insertAsk_keys o rest hx) with heq | hmem
        · rw [heq]; omega
        · obtain ⟨l'', hl'', heq⟩ := List.mem_map.mp hmem
          rw [← heq]
          exact (List.pairwise_cons.mp h).1 l'' hl''

theorem insertAsk_ladderWF (o : Order) (ls : List Level) (hside : o.side = Side.Sell)
    (hqty : 0 < o.qty) (h : LadderWF Side.Sell ls) :
    LadderWF Side.Sell (insertAsk o ls) := by
  induction ls with
  | nil =>
    intro l hl
    simp only [insertAsk, List.mem_singleton] at hl
    subst hl
    refine ⟨by simp, fun o' ho' => ?_⟩
    simp only [List.mem_singleton] at ho'
    subst ho'
    exact ⟨hside, rfl, hqty⟩
  | cons hd rest ih =>
    obtain ⟨px, q⟩ := hd
    by_cases h1 : o.price < px
    · simp only [insertAsk, if_pos h1]
      intro l hl
      rcases List.mem_cons.mp hl with rfl | hl
      · refine ⟨by simp, fun o' ho' => ?_⟩
        simp only [List.mem_singleton] at ho'
        subst ho'
        exact ⟨hside, rfl, hqty⟩
      · exact h l hl
    · by_cases h2 : o.price = px
      · simp only [insertAsk, if_neg h1, if_pos h2]
        intro l hl
        rcases List.mem_cons.mp hl with rfl | hl
        · refine ⟨by simp, fun o' ho' => ?_⟩
          rcases List.mem_append.mp ho' with ho' | ho'
          · exact (h (px, q) (List.mem_cons_self _ _)).2 o' ho'
          · simp only [List.mem_singleton] at ho'
            subst ho'
            exact ⟨hside, h2, hqty⟩
        · exact h l (List.mem_cons_of_mem _ hl)
      · simp only [insertAsk, if_neg h1, if_neg h2]
        intro l hl
        rcases List.mem_cons.mp hl with rfl | hl
        · exact h _ (List.mem_cons_self _ _)
        · exact ih (fun l' hl' => h l' (List.mem_cons_of_mem _ hl')) l hl

theorem insertAsk_orders_perm (o : Order) (ls : List Level) :
    (ordersOf (insertAsk o ls)).Perm (o :: ordersOf ls) := by
  induction ls with
  | nil => simp [insertAsk, ordersOf]
  | cons hd rest ih =>
    obtain ⟨px, q⟩ := hd
    by_cases h1 : o.price < px
    · simp only [insertAsk, if_pos h1, ordersOf_cons]
      simp
    · by_cases h2 : o.price = px
      · simp only [insertAsk, if_neg h1, if_pos h2, ordersOf_cons]
        exact (List.perm_append_singleton o q).append_right (ordersOf rest)
      · simp only [insertAsk, if_neg h1, if_neg h2, ordersOf_cons]
        exact (List.Perm.append_left q ih).trans List.perm_middle

theorem insertAsk_entries (o : Order) (ls : List Level) :
    ∀ pe ∈ entriesOf (insertAsk o ls), pe ∈ entriesOf ls ∨ pe = (o.price, o) := by
  induction ls with
  | nil => simp [insertAsk, entriesOf]
  | cons hd rest ih =>
    obtain ⟨px, q⟩ := hd
    intro pe hpe
    by_cases h1 : o.price < px
    · have hins : insertAsk o ((px, q) :: rest) = (o.price, [o]) :: (px, q) :: rest := by
        simp [insertAsk, h1]
      rw [hins, entriesOf_cons] at hpe
      rcases List.mem_append.mp hpe with hpe | hpe
      · right; simpa using hpe
      · left; exact hpe
    · by_cases h2 : o.price = px
      · have hins : insertAsk o ((px, q) :: rest) = (px, q ++ [o]) :: rest := by
          simp [insertAsk, h1, h2]
        rw [hins, entriesOf_cons] at hpe
        rcases List.mem_append.mp hpe with hpe | hpe
        · rw [List.map_append] at hpe
          rcases List.mem_append.mp hpe with hpe | hpe
          · left; rw [entriesOf_cons]; exact List.mem_append_left _ hpe
          · right
            simp only [List.map_cons, List.map_nil, List.mem_singleton] at hpe
            rw [hpe, h2]
        · left; rw [entriesOf_cons]; exact List.mem_append_right _ hpe
      · have hins : insertAsk o ((px, q) :: rest) = (px, q) :: insertAsk o rest := by
          simp [insertAsk, h1, h2]
        rw [hins, entriesOf_cons] at hpe
        rcases List.mem_append.mp hpe with hpe | hpe
        · left; rw [entriesOf_cons]; exact List.mem_append_left _ hpe
        · rcases ih pe hpe with h | h
          · left; rw [entriesOf_cons]; exact List.mem_append_right _ h
          · right; exact h

theorem insertAsk_entries_sub (o : Order) (ls : List Level) :
    ∀ pe ∈ entriesOf ls, pe ∈ entriesOf (insertAsk o ls) := by
  induction ls with
  | nil => simp [entriesOf]
  | cons hd rest ih =>
    obtain ⟨px, q⟩ := hd
    intro pe hpe
    rw [entriesOf_cons] at hpe
    by_cases h1 : o.price < px
    · have hins : insertAsk o ((px, q) :: rest) = (o.price, [o]) :: (px, q) :: rest := by
        simp [insertAsk, h1]
      rw [hins, entriesOf_cons]
      refine List.mem_append_right _ ?_
      rw [entriesOf_cons]
      exact hpe
    · by_cases h2 : o.price = px
      · have hins : insertAsk o ((px, q) :: rest) = (px, q ++ [o]) :: rest := by
          simp [insertAsk, h1, h2]
        rw [hins, entriesOf_cons]
        rcases List.mem_append.mp hpe with hpe | hpe
        · refine List.mem_append_left _ ?_
          rw [List.map_append]
          exact List.mem_append_left _ hpe
        · exact List.mem_append_right _ hpe
      · have hins : insertAsk o ((px, q) :: rest) = (px, q) :: insertAsk o rest := by
          simp [insertAsk, h1, h2]
        rw [hins, entriesOf_cons]
        rcases List.mem_append.mp hpe with hpe | hpe
        · exact List.mem_append_left _ hpe
        · exact List.mem_append_right _ (ih pe hpe)

theorem insertAsk_self_mem (o : Order) (ls : List Level) :
    (o.price, o) ∈ entriesOf (insertAsk o ls) := by
  induction ls with
  | nil => simp [insertAsk, entriesOf]
  | cons hd rest ih =>
    obtain ⟨px, q⟩ := hd
    by_cases h1 : o.price < px
    · have hins : insertAsk o ((px, q) :: rest) = (o.price, [o]) :: (px, q) :: rest := by
        simp [insertAsk, h1]
      rw [hins, entriesOf_cons]
      exact List.mem_append_left _ (by simp)
    · by_cases h2 : o.price = px
      · have hins : insertAsk o ((px, q) :: rest) = (px, q ++ [o]) :: rest := by
          simp [insertAsk, h1, h2]
        rw [hins, entriesOf_cons]
        refine List.mem_append_left _ ?_
        rw [List.map_append]
        refine List.mem_append_right _ ?_
        simp [h2]
      · have hins : insertAsk o ((px, q) :: rest) = (px, q) :: insertAsk o rest := by
          simp [insertAsk, h1, h2]
        rw [hins, entriesOf_cons]
        exact List.mem_append_right _ ih

theorem levelsQty_eq_qtySum_orders (ls : List Level) :
    levelsQty ls = qtySum (ordersOf ls) := by
  induction ls with
  | nil => simp [levelsQty, ordersOf, qtySum]
  | cons hd rest ih =>
    rw [levelsQty_cons, ordersOf_cons, ih]
    simp [qtySum]

theorem qtySum_perm {a b : List Order} (h : a.Perm b) : qtySum a = qtySum b :=
  List.Perm.sum_eq (h.map Order.qty)

theorem insertAsk_levelsQty (o : Order) (ls : List Level) :
    levelsQty (insertAsk o ls) = o.qty + levelsQty ls := by
  rw [levelsQty_eq_qtySum_orders, levelsQty_eq_qtySum_orders,
    qtySum_perm (insertAsk_orders_perm o ls)]
  simp [qtySum]

end XChange

namespace XChange

/-! ### Ladder-insertion (`insertBid`) lemmas — mirror images of the ask side -/

theorem insertBid_keys (o : Order) (ls : List Level) :
    keys (insertBid o ls) ⊆ o.price :: keys ls := by
  induction ls with
  | nil => intro x hx; simpa [insertBid, keys] using hx
  | cons hd rest ih =>
    obtain ⟨px, q⟩ := hd
    intro x hx
    by_cases h1 : px < o.price
    · simp only [insertBid, if_pos h1, keys, List.map_cons, List.mem_cons] at hx ⊢
      tauto
    · by_cases h2 : o.price = px
      · simp only [insertBid, if_neg h1, if_pos h2, keys, List.map_cons, List.mem_cons] at hx ⊢
        tauto
      · simp only [insertBid, if_neg h1, if_neg h2, keys, List.map_cons, List.mem_cons] at hx ⊢
        rcases hx with rfl | hx
        · tauto
        · rcases List.mem_cons.mp (ih hx) with rfl | h
          · tauto
          · exact Or.inr (Or.inr h)

theorem insertBid_sorted (o : Order) (ls : List Level) (h : SortedDesc ls) :
    SortedDesc (insertBid o ls) := by
  induction ls with
  | nil => simp [insertBid, SortedDesc]
  | cons hd rest ih =>
    obtain ⟨px, q⟩ := hd
    by_cases h1 : px < o.price
    · simp only [insertBid, if_pos h1]
      refine List.pairwise_cons.mpr ⟨?_, h⟩
      intro l' hl'
      rcases List.mem_cons.mp hl' with rfl | hl'
      · exact h1
      · exact lt_trans ((List.pairwise_cons.mp h).1 l' hl') h1
    · by_cases h2 : o.price = px
      · simp only [insertBid, if_neg h1, if_pos h2]
        exact List.pairwise_cons.mpr
          ⟨fun l' hl' => (List.pairwise_cons.mp h).1 l' hl', (List.pairwise_cons.mp h).2⟩
      · simp only [insertBid, if_neg h1, if_neg h2]
        refine List.pairwise_cons.mpr ⟨?_, ih (List.pairwise_cons.mp h).2⟩
        intro l' hl'
        have hx : l'.1 ∈ keys (insertBid o rest) := List.mem_map.mpr ⟨l', hl', rfl⟩
        rcases List.mem_cons.mp (insertBid_keys o rest hx) with heq | hmem
        · rw [heq]; omega
        · obtain ⟨l'', hl'', heq⟩ := List.mem_map.mp hmem
          rw [← heq]
          exact (List.pairwise_cons.mp h).1 l'' hl''

theorem insertBid_ladderWF (o : Order) (ls : List Level) (hside : o.side = Side.Buy)
    (hqty : 0 < o.qty) (h : LadderWF Side.Buy ls) :
    LadderWF Side.Buy (insertBid o ls) := by
  induction ls with
  | nil =>
    intro l hl
    simp only [insertBid, List.mem_singleton] at hl
    subst hl
    refine ⟨by simp, fun o' ho' => ?_⟩
    simp only [List.mem_singleton] at ho'
    subst ho'
    exact ⟨hside, rfl, hqty⟩
  | cons hd rest ih =>
    obtain ⟨px, q⟩ := hd
    by_cases h1 : px < o.price
    · simp only [insertBid, if_pos h1]
      intro l hl
      rcases List.mem_cons.mp hl with rfl | hl
      · refine ⟨by simp, fun o' ho' => ?_⟩
        simp only [List.mem_singleton] at ho'
        subst ho'
        exact ⟨hside, rfl, hqty⟩
      · exact h l hl
    · by_cases h2 : o.price = px
      · simp only [insertBid, if_neg h1, if_pos h2]
        intro l hl
        rcases List.mem_cons.mp hl with rfl | hl
        · refine ⟨by simp, fun o' ho' => ?_⟩
          rcases List.mem_append.mp ho' with ho' | ho'
          · exact (h (px, q) (List.mem_cons_self _ _)).2 o' ho'
          · simp only [List.mem_singleton] at ho'
            subst ho'
            exact ⟨hside, h2, hqty⟩
        · exact h l (List.mem_cons_of_mem _ hl)
      · simp only [insertBid, if_neg h1, if_neg h2]
        intro l hl
        rcases List.mem_cons.mp hl with rfl | hl
        · exact h _ (List.mem_cons_self _ _)
        · exact ih (fun l' hl' => h l' (List.mem_cons_of_mem _ hl')) l hl

theorem insertBid_orders_perm (o : Order) (ls : List Level) :
    (ordersOf (insertBid o ls)).Perm (o :: ordersOf ls) := by
  induction ls with
  | nil => simp [insertBid, ordersOf]
  | cons hd rest ih =>
    obtain ⟨px, q⟩ := hd
    by_cases h1 : px < o.price
    · simp only [insertBid, if_pos h1, ordersOf_cons]
      simp
    · by_cases h2 : o.price = px
      · simp only [insertBid, if_neg h1, if_pos h2, ordersOf_cons]
        exact (List.perm_append_singleton o q).append_right (ordersOf rest)
      · simp only [insertBid, if_neg h1, if_neg h2, ordersOf_cons]
        exact (List.Perm.append_left q ih).trans List.perm_middle

theorem insertBid_entries (o : Order) (ls : List Level) :
    ∀ pe ∈ entriesOf (insertBid o ls), pe ∈ entriesOf ls ∨ pe = (o.price, o) := by
  induction ls with
  | nil => simp [insertBid, entriesOf]
  | cons hd rest ih =>
    obtain ⟨px, q⟩ := hd
    intro pe hpe
    by_cases h1 : px < o.price
    · have hins : insertBid o ((px, q) :: rest) = (o.price, [o]) :: (px, q) :: rest := by
        simp [insertBid, h1]
      rw [hins, entriesOf_cons] at hpe
      rcases List.mem_append.mp hpe with hpe | hpe
      · right; simpa using hpe
      · left; exact hpe
    · by_cases h2 : o.price = px
      · have hins : insertBid o ((px, q) :: rest) = (px, q ++ [o]) :: rest := by
          simp [insertBid, h1, h2]
        rw [hins, entriesOf_cons] at hpe
        rcases List.mem_append.mp hpe with hpe | hpe
        · rw [List.map_append] at hpe
          rcases List.mem_append.mp hpe with hpe | hpe
          · left; rw [entriesOf_cons]; exact List.mem_append_left _ hpe
          · right
            simp only [List.map_cons, List.map_nil, List.mem_singleton] at hpe
            rw [hpe, h2]
        · left; rw [entriesOf_cons]; exact List.mem_append_right _ hpe
      · have hins : insertBid o ((px, q) :: rest) = (px, q) :: insertBid o rest := by
          simp [insertBid, h1, h2]
        rw [hins, entriesOf_cons] at hpe
        rcases List.mem_append.mp hpe with hpe | hpe
        · left; rw [entriesOf_cons]; exact List.mem_append_left _ hpe
        · rcases ih pe hpe with h | h
          · left; rw [entriesOf_cons]; exact List.mem_append_right _ h
          · right; exact h

theorem insertBid_entries_sub (o : Order) (ls : List Level) :
    ∀ pe ∈ entriesOf ls, pe ∈ entriesOf (insertBid o ls) := by
  induction ls with
  | nil => simp [entriesOf]
  | cons hd rest ih =>
    obtain ⟨px, q⟩ := hd
    intro pe hpe
    rw [entriesOf_cons] at hpe
    by_cases h1 : px < o.price
    · have hins : insertBid o ((px, q) :: rest) = (o.price, [o]) :: (px, q) :: rest := by
        simp [insertBid, h1]
      rw [hins, entriesOf_cons]
      refine List.mem_append_right _ ?_
      rw [entriesOf_cons]
      exact hpe
    · by_cases h2 : o.price = px
      · have hins : insertBid o ((px, q) :: rest) = (px, q ++ [o]) :: rest := by
          simp [insertBid, h1, h2]
        rw [hins, entriesOf_cons]
        rcases List.mem_append.mp hpe with hpe | hpe
        · refine List.mem_append_left _ ?_
          rw [List.map_append]
          exact List.mem_append_left _ hpe
        · exact List.mem_append_right _ hpe
      · have hins : insertBid o ((px, q) :: rest) = (px, q) :: insertBid o rest := by
          simp [insertBid, h1, h2]
        rw [hins, entriesOf_cons]
        rcases List.mem_append.mp hpe with hpe | hpe
        · exact List.mem_append_left _ hpe
        · exact List.mem_append_right _ (ih pe hpe)

theorem insertBid_self_mem (o : Order) (ls : List Level) :
    (o.price, o) ∈ entriesOf (insertBid o ls) := by
  induction ls with
  | nil => simp [insertBid, entriesOf]
  | cons hd rest ih =>
    obtain ⟨px, q⟩ := hd
    by_cases h1 : px < o.price
    · have hins : insertBid o ((px, q) :: rest) = (o.price, [o]) :: (px, q) :: rest := by
        simp [insertBid, h1]
      rw [hins, entriesOf_cons]
      exact List.mem_append_left _ (by simp)
    · by_cases h2 : o.price = px
      · have hins : insertBid o ((px, q) :: rest) = (px, q ++ [o]) :: rest := by
          simp [insertBid, h1, h2]
        rw [hins, entriesOf_cons]
        refine List.mem_append_left _ ?_
        rw [List.map_append]
        refine List.mem_append_right _ ?_
        simp [h2]
      · have hins : insertBid o ((px, q) :: rest) = (px, q) :: insertBid o rest := by
          simp [insertBid, h1, h2]
        rw [hins, entriesOf_cons]
        exact List.mem_append_right _ ih

theorem insertBid_levelsQty (o : Order) (ls : List Level) :
    levelsQty (insertBid o ls) = o.qty + levelsQty ls := by
  rw [levelsQty_eq_qtySum_orders, levelsQty_eq_qtySum_orders,
    qtySum_perm (insertBid_orders_perm o ls)]
  simp [qtySum]

end XChange

namespace XChange

/-! ### Bridge and bookkeeping helpers for the main invariant -/

theorem keys_cons (l : Level) (ls : List Level) : keys (l :: ls) = l.1 :: keys ls := rfl

theorem entriesOf_lookup {ls : List Level} (hnd : (keys ls).Nodup) {p : Int} {o : Order}
    (h : (p, o) ∈ entriesOf ls) : ∃ q, lookupLevel ls p = some q ∧ o ∈ q := by
  obtain ⟨l, hl, h1, h2⟩ := mem_entriesOf.mp h
  have h1' : l.1 = p := h1
  refine ⟨l.2, ?_, h2⟩
  have hmem : (p, l.2) ∈ ls := by
    rw [← h1']
    exact hl
  exact lookupLevel_mem hnd hmem

theorem matchAsks_keys (ls : List Level) (tk : Order) :
    keys (matchAsks tk ls).levels ⊆ keys ls := by
  induction ls generalizing tk with
  | nil => simp [matchAsks, keys]
  | cons hd rest ih =>
    obtain ⟨px, q⟩ := hd
    by_cases h1 : 0 < tk.qty
    · by_cases h2 : tk.price < px
      · simp only [matchAsks, if_pos h1, if_pos h2]
        exact fun x hx => hx
      · by_cases h3 : (matchQueue tk q).queue.isEmpty
        · simp only [matchAsks, if_pos h1, if_neg h2, if_pos h3]
          intro x hx
          rw [keys_cons]
          exact List.mem_cons_of_mem _ (ih (matchQueue tk q).taker hx)
        · simp only [matchAsks, if_pos h1, if_neg h2, if_neg h3]
          intro x hx
          rw [keys_cons] at hx ⊢
          exact hx
    · simp only [matchAsks, if_neg h1]
      exact fun x hx => hx

theorem matchBids_keys (ls : List Level) (tk : Order) :
    keys (matchBids tk ls).levels ⊆ keys ls := by
  induction ls generalizing tk with
  | nil => simp [matchBids, keys]
  | cons hd rest ih =>
    obtain ⟨px, q⟩ := hd
    by_cases h1 : 0 < tk.qty
    · by_cases h2 : px < tk.price
      · simp only [matchBids, if_pos h1, if_pos h2]
        exact fun x hx => hx
      · by_cases h3 : (matchQueue tk q).queue.isEmpty
        · simp only [matchBids, if_pos h1, if_neg h2, if_pos h3]
          intro x hx
          rw [keys_cons]
          exact List.mem_cons_of_mem _ (ih (matchQueue tk q).taker hx)
        · simp only [matchBids, if_pos h1, if_neg h2, if_neg h3]
          intro x hx
          rw [keys_cons] at hx ⊢
          exact hx
    · simp only [matchBids, if_neg h1]
      exact fun x hx => hx

theorem idxEraseAll_mem {ids : List Nat} {idx : IdIndex} {e : Nat × Side × Int} :
    e ∈ idxEraseAll idx ids ↔ e ∈ idx ∧ e.1 ∉ ids := by
  induction ids generalizing idx with
  | nil => simp [idxEraseAll]
  | cons i rest ih =>
    rw [show idxEraseAll idx (i :: rest) = idxEraseAll (idxErase idx i) rest from rfl,
      ih]
    rw [idxErase_mem]
    simp only [List.mem_cons]
    tauto

theorem idxInsert_mem {idx : IdIndex} {i : Nat} {sp : Side × Int} {e : Nat × Side × Int} :
    e ∈ idxInsert idx i sp ↔ (e ∈ idx ∧ e.1 ≠ i) ∨ e = (i, sp) := by
  rw [idxInsert, List.mem_append, idxErase_mem]
  simp

theorem enqueue_eq_buy (b : Book) (o : Order) (h : o.side = Side.Buy) :
    enqueue b o = { b with bids := insertBid o b.bids,
                           id_index := idxInsert b.id_index o.id (o.side, o.price) } := by
  simp [enqueue, h]

theorem enqueue_eq_sell (b : Book) (o : Order) (h : o.side = Side.Sell) :
    enqueue b o = { b with asks := insertAsk o b.asks,
                           id_index := idxInsert b.id_index o.id (o.side, o.price) } := by
  simp [enqueue, h]

theorem add_order_eq_buy (b : Book) (o : Order) (h : o.side = Side.Buy) :
    add_order b o =
      (let r := matchAsks o b.asks
       let b2 : Book := { b with asks := r.levels,
                                 id_index := idxEraseAll b.id_index r.removed }
       if 0 < r.taker.qty then (r.trades, enqueue b2 r.taker) else (r.trades, b2)) := by
  simp [add_order, h]

theorem add_order_eq_sell (b : Book) (o : Order) (h : o.side = Side.Sell) :
    add_order b o =
      (let r := matchBids o b.bids
       let b2 : Book := { b with bids := r.levels,
                                 id_index := idxEraseAll b.id_index r.removed }
       if 0 < r.taker.qty then (r.trades, enqueue b2 r.taker) else (r.trades, b2)) := by
  simp [add_order, h]

end XChange

namespace XChange

/-- `add_order` preserves the book invariant (Buy branch). -/
theorem add_order_WF_buy (b : Book) (o : Order) (hs : o.side = Side.Buy)
    (hwf : BookWF b) (hfresh : o.id ∉ restingIds b) : BookWF (add_order b o).2 := by
  have hgoal : (add_order b o).2 =
      (if 0 < (matchAsks o b.asks).taker.qty
       then enqueue { b with asks := (matchAsks o b.asks).levels,
                             id_index := idxEraseAll b.id_index (matchAsks o b.asks).removed }
              (matchAsks o b.asks).taker
       else { b with asks := (matchAsks o b.asks).levels,
                     id_index := idxEraseAll b.id_index (matchAsks o b.asks).removed }) := by
    rw [add_order_eq_buy b o hs]
    by_cases henq : 0 < (matchAsks o b.asks).taker.qty <;> simp [henq]
  set r : LMatch := matchAsks o b.asks with hr
  have hsorted2 : SortedAsc r.levels := matchAsks_sorted b.asks o hwf.asksSorted
  have hWF2 : LadderWF Side.Sell r.levels := matchAsks_ladderWF b.asks o hwf.asksWF
  have hids : idsOf b.asks = r.removed ++ idsOf r.levels := matchAsks_ids b.asks o
  have hkeys : keys r.levels ⊆ keys b.asks := matchAsks_keys b.asks o
  have hres := hwf.idsNodup
  rw [restingIds] at hres
  have hasksN : (idsOf b.asks).Nodup := hres.of_append_right
  have hbidsdisj : ∀ x ∈ idsOf b.bids, x ∉ idsOf b.asks :=
    fun x hx => List.disjoint_of_nodup_append hres hx
  have hremsub : ∀ x ∈ r.removed, x ∈ idsOf b.asks := by
    intro x hx
    rw [hids]
    exact List.mem_append_left _ hx
  have hlevsub : ∀ x ∈ idsOf r.levels, x ∈ idsOf b.asks := by
    intro x hx
    rw [hids]
    exact List.mem_append_right _ hx
  have hremdisj : ∀ x ∈ idsOf r.levels, x ∉ r.removed := by
    have h0 := hasksN
    rw [hids] at h0
    intro x hx hxr
    exact List.disjoint_of_nodup_append h0 hxr hx
  have hN2 : (idsOf b.bids ++ idsOf r.levels).Nodup := by
    have h0 := hres
    rw [hids] at h0
    have hsub : List.Sublist (idsOf b.bids ++ idsOf r.levels)
        (idsOf b.bids ++ (r.removed ++ idsOf r.levels)) :=
      (List.sublist_append_right _ _).append_left _
    exact h0.sublist hsub
  have hfreshb : o.id ∉ idsOf b.bids := fun hx => hfresh (List.mem_append_left _ hx)
  have hfresha : o.id ∉ idsOf b.asks := fun hx => hfresh (List.mem_append_right _ hx)
  rw [hgoal]
  by_cases henq : 0 < r.taker.qty
  · -- residual is enqueued on the bid side
    obtain ⟨htkid, htkside0, htkpr⟩ := matchAsks_taker_fields b.asks o
    have htkside : r.taker.side = Side.Buy := htkside0.trans hs
    rw [if_pos henq, enqueue_eq_buy _ _ htkside]
    have hperm : (idsOf (insertBid r.taker b.bids)).Perm (r.taker.id :: idsOf b.bids) :=
      (insertBid_orders_perm r.taker b.bids).map Order.id
    refine ⟨insertBid_sorted r.taker b.bids hwf.bidsSorted, hsorted2,
      insertBid_ladderWF r.taker b.bids htkside henq hwf.bidsWF, hWF2, ?_, ?_, ?_, ?_⟩
    · -- Nodup of resting ids
      have hR : ((r.taker.id :: idsOf b.bids) ++ idsOf r.levels).Nodup := by
        refine List.nodup_cons.mpr ⟨?_, hN2⟩
        rw [htkid]
        intro hx
        rcases List.mem_append.mp hx with hx | hx
        · exact hfreshb hx
        · exact hfresha (hlevsub _ hx)
      exact ((hperm.append_right (idsOf r.levels)).nodup_iff).mpr hR
    · -- uncrossed
      intro pb hpb pa hpa
      rcases List.mem_cons.mp (insertBid_keys r.taker b.bids hpb) with rfl | hpb
      · have := matchAsks_rest_price b.asks o hwf.asksSorted henq pa hpa
        rw [htkpr]
        exact this
      · exact hwf.uncrossed pb hpb pa (hkeys hpa)
    · -- idx_to_book
      intro e he
      rcases idxInsert_mem.mp he with ⟨hein, hne⟩ | rfl
      · obtain ⟨hin, hnotrem⟩ := idxEraseAll_mem.mp hein
        obtain ⟨i, s, p⟩ := e
        obtain ⟨o₀, ho₀, hido⟩ := hwf.idx_to_book (i, s, p) hin
        cases s with
        | Buy =>
          exact ⟨o₀, insertBid_entries_sub r.taker b.bids _ ho₀, hido⟩
        | Sell =>
          obtain ⟨o2, ho2, hid2⟩ := matchAsks_entries_survive b.asks o p o₀ ho₀
            (by rw [hido]; exact hnotrem)
          exact ⟨o2, ho2, hid2.trans hido⟩
      · refine ⟨r.taker, ?_, rfl⟩
        show (r.taker.price, r.taker) ∈
          entriesOf (ladderOf _ r.taker.side)
        rw [htkside]
        exact insertBid_self_mem r.taker b.bids
    · -- book_to_idx
      intro s pe hpe
      cases s with
      | Buy =>
        rcases insertBid_entries r.taker b.bids pe hpe with hold | rfl
        · have hmemb : (pe.2).id ∈ idsOf b.bids :=
            mem_idsOf.mpr ⟨pe.2, entriesOf_orders hold, rfl⟩
          have hnotrem : (pe.2).id ∉ r.removed :=
            fun hx => hbidsdisj _ hmemb (hremsub _ hx)
          have hnetk : (pe.2).id ≠ r.taker.id := by
            rw [htkid]
            intro hc
            exact hfreshb (hc ▸ hmemb)
          rw [idxFind_insert, if_neg hnetk]
          have h2 := idxFind_eraseAll r.removed b.id_index (pe.2).id
          rw [if_neg hnotrem] at h2
          exact h2.trans (hwf.book_to_idx Side.Buy pe hold)
        · rw [idxFind_insert, htkside]
          simp
      | Sell =>
        obtain ⟨o₀, ho₀, hidEq, _, _⟩ := matchAsks_entries b.asks o pe hpe
        have hmema : (pe.2).id ∈ idsOf r.levels :=
          mem_idsOf.mpr ⟨pe.2, entriesOf_orders hpe, rfl⟩
        have hnotrem : (pe.2).id ∉ r.removed := hremdisj _ hmema
        have hnetk : (pe.2).id ≠ r.taker.id := by
          rw [htkid]
          intro hc
          exact hfresha (hc ▸ hlevsub _ hmema)
        rw [idxFind_insert, if_neg hnetk]
        have h2 := idxFind_eraseAll r.removed b.id_index (pe.2).id
        rw [if_neg hnotrem] at h2
        refine h2.trans ?_
        rw [hidEq]
        exact hwf.book_to_idx Side.Sell (pe.1, o₀) ho₀
  · -- no residual: book keeps its bids, asks shrink
    rw [if_neg henq]
    refine ⟨hwf.bidsSorted, hsorted2, hwf.bidsWF, hWF2, hN2, ?_, ?_, ?_⟩
    · intro pb hpb pa hpa
      exact hwf.uncrossed pb hpb pa (hkeys hpa)
    · intro e he
      obtain ⟨hin, hnotrem⟩ := idxEraseAll_mem.mp he
      obtain ⟨i, s, p⟩ := e
      obtain ⟨o₀, ho₀, hido⟩ := hwf.idx_to_book (i, s, p) hin
      cases s with
      | Buy => exact ⟨o₀, ho₀, hido⟩
      | Sell =>
        obtain ⟨o2, ho2, hid2⟩ := matchAsks_entries_survive b.asks o p o₀ ho₀
          (by rw [hido]; exact hnotrem)
        exact ⟨o2, ho2, hid2.trans hido⟩
    · intro s pe hpe
      cases s with
      | Buy =>
        have hmemb : (pe.2).id ∈ idsOf b.bids :=
          mem_idsOf.mpr ⟨pe.2, entriesOf_orders hpe, rfl⟩
        have hnotrem : (pe.2).id ∉ r.removed :=
          fun hx => hbidsdisj _ hmemb (hremsub _ hx)
        have h2 := idxFind_eraseAll r.removed b.id_index (pe.2).id
        rw [if_neg hnotrem] at h2
        exact h2.trans (hwf.book_to_idx Side.Buy pe hpe)
      | Sell =>
        obtain ⟨o₀, ho₀, hidEq, _, _⟩ := matchAsks_entries b.asks o pe hpe
        have hmema : (pe.2).id ∈ idsOf r.levels :=
          mem_idsOf.mpr ⟨pe.2, entriesOf_orders hpe, rfl⟩
        have hnotrem : (pe.2).id ∉ r.removed := hremdisj _ hmema
        have h2 := idxFind_eraseAll r.removed b.id_index (pe.2).id
        rw [if_neg hnotrem] at h2
        refine h2.trans ?_
        rw [hidEq]
        exact hwf.book_to_idx Side.Sell (pe.1, o₀) ho₀

end XChange

namespace XChange

/-- `add_order` preserves the book invariant (Sell branch). -/
theorem add_order_WF_sell (b : Book) (o : Order) (hs : o.side = Side.Sell)
    (hwf : BookWF b) (hfresh : o.id ∉ restingIds b) : BookWF (add_order b o).2 := by
  have hgoal : (add_order b o).2 =
      (if 0 < (matchBids o b.bids).taker.qty
       then enqueue { b with bids := (matchBids o b.bids).levels,
                             id_index := idxEraseAll b.id_index (matchBids o b.bids).removed }
              (matchBids o b.bids).taker
       else { b with bids := (matchBids o b.bids).levels,
                     id_index := idxEraseAll b.id_index (matchBids o b.bids).removed }) := by
    rw [add_order_eq_sell b o hs]
    by_cases henq : 0 < (matchBids o b.bids).taker.qty <;> simp [henq]
  set r : LMatch := matchBids o b.bids with hr
  have hsorted2 : SortedDesc r.levels := matchBids_sorted b.bids o hwf.bidsSorted
  have hWF2 : LadderWF Side.Buy r.levels := matchBids_ladderWF b.bids o hwf.bidsWF
  have hids : idsOf b.bids = r.removed ++ idsOf r.levels := matchBids_ids b.bids o
  have hkeys : keys r.levels ⊆ keys b.bids := matchBids_keys b.bids o
  have hres := hwf.idsNodup
  rw [restingIds] at hres
  have hbidsN : (idsOf b.bids).Nodup := hres.of_append_left
  have hbidsdisj : ∀ x ∈ idsOf b.bids, x ∉ idsOf b.asks :=
    fun x hx => List.disjoint_of_nodup_append hres hx
  have hremsub : ∀ x ∈ r.removed, x ∈ idsOf b.bids := by
    intro x hx
    rw [hids]
    exact List.mem_append_left _ hx
  have hlevsub : ∀ x ∈ idsOf r.levels, x ∈ idsOf b.bids := by
    intro x hx
    rw [hids]
    exact List.mem_append_right _ hx
  have hremdisj : ∀ x ∈ idsOf r.levels, x ∉ r.removed := by
    have h0 := hbidsN
    rw [hids] at h0
    intro x hx hxr
    exact List.disjoint_of_nodup_append h0 hxr hx
  have hN2 : (idsOf r.levels ++ idsOf b.asks).Nodup := by
    have h0 := hres
    rw [hids] at h0
    have hsub : List.Sublist (idsOf r.levels ++ idsOf b.asks)
        ((r.removed ++ idsOf r.levels) ++ idsOf b.asks) :=
      (List.sublist_append_right _ _).append_right _
    exact h0.sublist hsub
  have hfreshb : o.id ∉ idsOf b.bids := fun hx => hfresh (List.mem_append_left _ hx)
  have hfresha : o.id ∉ idsOf b.asks := fun hx => hfresh (List.mem_append_right _ hx)
  rw [hgoal]
  by_cases henq : 0 < r.taker.qty
  · obtain ⟨htkid, htkside0, htkpr⟩ := matchBids_taker_fields b.bids o
    have htkside : r.taker.side = Side.Sell := htkside0.trans hs
    rw [if_pos henq, enqueue_eq_sell _ _ htkside]
    have hperm : (idsOf (insertAsk r.taker b.asks)).Perm (r.taker.id :: idsOf b.asks) :=
      (insertAsk_orders_perm r.taker b.asks).map Order.id
    refine ⟨hsorted2, insertAsk_sorted r.taker b.asks hwf.asksSorted,
      hWF2, insertAsk_ladderWF r.taker b.asks htkside henq hwf.asksWF, ?_, ?_, ?_, ?_⟩
    · have hR : (idsOf r.levels ++ (r.taker.id :: idsOf b.asks)).Nodup := by
        rw [List.nodup_append] at hN2 ⊢
        obtain ⟨hA, hB, hC⟩ := hN2
        refine ⟨hA, List.nodup_cons.mpr ⟨by rw [htkid]; exact hfresha, hB⟩, ?_⟩
        intro x hx hc
        rcases List.mem_cons.mp hc with rfl | hc
        · have hmem := hlevsub _ hx
          rw [htkid] at hmem
          exact hfreshb hmem
        · exact hC hx hc
      exact ((hperm.append_left (idsOf r.levels)).nodup_iff).mpr hR
    · intro pb hpb pa hpa
      have hpb' := hkeys hpb
      rcases List.mem_cons.mp (insertAsk_keys r.taker b.asks hpa) with rfl | hpa'
      · rw [htkpr]
        exact matchBids_rest_price b.bids o hwf.bidsSorted henq pb hpb
      · exact hwf.uncrossed pb hpb' pa hpa'
    · intro e he
      rcases idxInsert_mem.mp he with ⟨hein, hne⟩ | rfl
      · obtain ⟨hin, hnotrem⟩ := idxEraseAll_mem.mp hein
        obtain ⟨i, s, p⟩ := e
        obtain ⟨o₀, ho₀, hido⟩ := hwf.idx_to_book (i, s, p) hin
        cases s with
        | Sell =>
          exact ⟨o₀, insertAsk_entries_sub r.taker b.asks _ ho₀, hido⟩
        | Buy =>
          obtain ⟨o2, ho2, hid2⟩ := matchBids_entries_survive b.bids o p o₀ ho₀
            (by rw [hido]; exact hnotrem)
          exact ⟨o2, ho2, hid2.trans hido⟩
      · refine ⟨r.taker, ?_, rfl⟩
        show (r.taker.price, r.taker) ∈
          entriesOf (ladderOf _ r.taker.side)
        rw [htkside]
        exact insertAsk_self_mem r.taker b.asks
    · intro s pe hpe
      cases s with
      | Sell =>
        rcases insertAsk_entries r.taker b.asks pe hpe with hold | rfl
        · have hmemb : (pe.2).id ∈ idsOf b.asks :=
            mem_idsOf.mpr ⟨pe.2, entriesOf_orders hold, rfl⟩
          have hnotrem : (pe.2).id ∉ r.removed :=
            fun hx => hbidsdisj _ (hremsub _ hx) hmemb
          have hnetk : (pe.2).id ≠ r.taker.id := by
            rw [htkid]
            intro hc
            exact hfresha (hc ▸ hmemb)
          rw [idxFind_insert, if_neg hnetk]
          have h2 := idxFind_eraseAll r.removed b.id_index (pe.2).id
          rw [if_neg hnotrem] at h2
          exact h2.trans (hwf.book_to_idx Side.Sell pe hold)
        · rw [idxFind_insert, htkside]
          simp
      | Buy =>
        obtain ⟨o₀, ho₀, hidEq, _, _⟩ := matchBids_entries b.bids o pe hpe
        have hmema : (pe.2).id ∈ idsOf r.levels :=
          mem_idsOf.mpr ⟨pe.2, entriesOf_orders hpe, rfl⟩
        have hnotrem : (pe.2).id ∉ r.removed := hremdisj _ hmema
        have hnetk : (pe.2).id ≠ r.taker.id := by
          rw [htkid]
          intro hc
          exact hfreshb (hc ▸ hlevsub _ hmema)
        rw [idxFind_insert, if_neg hnetk]
        have h2 := idxFind_eraseAll r.removed b.id_index (pe.2).id
        rw [if_neg hnotrem] at h2
        refine h2.trans ?_
        rw [hidEq]
        exact hwf.book_to_idx Side.Buy (pe.1, o₀) ho₀
  · rw [if_neg henq]
    refine ⟨hsorted2, hwf.asksSorted, hWF2, hwf.asksWF, hN2, ?_, ?_, ?_⟩
    · intro pb hpb pa hpa
      exact hwf.uncrossed pb (hkeys hpb) pa hpa
    · intro e he
      obtain ⟨hin, hnotrem⟩ := idxEraseAll_mem.mp he
      obtain ⟨i, s, p⟩ := e
      obtain ⟨o₀, ho₀, hido⟩ := hwf.idx_to_book (i, s, p) hin
      cases s with
      | Sell => exact ⟨o₀, ho₀, hido⟩
      | Buy =>
        obtain ⟨o2, ho2, hid2⟩ := matchBids_entries_survive b.bids o p o₀ ho₀
          (by rw [hido]; exact hnotrem)
        exact ⟨o2, ho2, hid2.trans hido⟩
    · intro s pe hpe
      cases s with
      | Sell =>
        have hmemb : (pe.2).id ∈ idsOf b.asks :=
          mem_idsOf.mpr ⟨pe.2, entriesOf_orders hpe, rfl⟩
        have hnotrem : (pe.2).id ∉ r.removed :=
          fun hx => hbidsdisj _ (hremsub _ hx) hmemb
        have h2 := idxFind_eraseAll r.removed b.id_index (pe.2).id
        rw [if_neg hnotrem] at h2
        exact h2.trans (hwf.book_to_idx Side.Sell pe hpe)
      | Buy =>
        obtain ⟨o₀, ho₀, hidEq, _, _⟩ := matchBids_entries b.bids o pe hpe
        have hmema : (pe.2).id ∈ idsOf r.levels :=
          mem_idsOf.mpr ⟨pe.2, entriesOf_orders hpe, rfl⟩
        have hnotrem : (pe.2).id ∉ r.removed := hremdisj _ hmema
        have h2 := idxFind_eraseAll r.removed b.id_index (pe.2).id
        rw [if_neg hnotrem] at h2
        refine h2.trans ?_
        rw [hidEq]
        exact hwf.book_to_idx Side.Buy (pe.1, o₀) ho₀

end XChange

namespace XChange

/-! ### Combined preservation and cancellation helpers -/

/-- `add_order` preserves the book invariant. -/
theorem add_order_WF (b : Book) (o : Order) (hwf : BookWF b)
    (hfresh : o.id ∉ restingIds b) : BookWF (add_order b o).2 := by
  cases hs : o.side with
  | Buy => exact add_order_WF_buy b o hs hwf hfresh
  | Sell => exact add_order_WF_sell b o hs hwf hfresh

theorem removeFirstById_sublist (q : List Order) (i : Nat) :
    List.Sublist (removeFirstById q i) q := by
  induction q with
  | nil => simp [removeFirstById]
  | cons o rest ih =>
    rw [removeFirstById]
    split
    · exact (List.sublist_cons_self o rest)
    · exact ih.cons₂ o

theorem removeFirstById_mem {q : List Order} {i : Nat} {o' : Order}
    (h : o' ∈ q) (hne : o'.id ≠ i) : o' ∈ removeFirstById q i := by
  induction q with
  | nil => simp at h
  | cons o rest ih =>
    rw [removeFirstById]
    split
    · rename_i heq
      rcases List.mem_cons.mp h with rfl | h
      · exact absurd heq hne
      · exact h
    · rcases List.mem_cons.mp h with rfl | h
      · exact List.mem_cons_self _ _
      · exact List.mem_cons_of_mem _ (ih h)

theorem removeFirstById_not_mem {q : List Order} {i : Nat}
    (hnd : (q.map Order.id).Nodup) : i ∉ (removeFirstById q i).map Order.id := by
  induction q with
  | nil => simp [removeFirstById]
  | cons o rest ih =>
    rw [removeFirstById]
    simp only [List.map_cons, List.nodup_cons] at hnd
    split
    · rename_i heq
      rw [← heq]
      exact hnd.1
    · rename_i hne
      simp only [List.map_cons, List.mem_cons]
      intro hc
      rcases hc with hc | hc
      · exact hne hc.symm
      · exact ih hnd.2 hc

theorem setLevel_pairwise {P : Int → Int → Prop} {ls : List Level} (p : Int) (q : List Order)
    (h : ls.Pairwise (fun a b => P a.1 b.1)) :
    (setLevel ls p q).Pairwise (fun a b => P a.1 b.1) := by
  rw [setLevel]
  split
  · exact h.sublist (List.filter_sublist _)
  · rw [List.pairwise_map]
    refine List.Pairwise.imp ?_ h
    intro a b hab
    have hkey : ∀ l : Level, (if (l.1 == p) = true then ((p, q) : Level) else l).1 = l.1 := by
      intro l
      split
      · rename_i hl
        exact (beq_iff_eq.mp hl).symm
      · rfl
    rw [hkey a, hkey b]
    exact hab

theorem setLevel_keys {ls : List Level} {p : Int} {q : List Order} :
    keys (setLevel ls p q) ⊆ keys ls := by
  rw [setLevel]
  split
  · intro x hx
    obtain ⟨l, hl, rfl⟩ := List.mem_map.mp hx
    exact List.mem_map.mpr ⟨l, List.mem_of_mem_filter hl, rfl⟩
  · intro x hx
    obtain ⟨l, hl, hxx⟩ := List.mem_map.mp hx
    obtain ⟨l₀, hl₀, rfl⟩ := List.mem_map.mp hl
    refine List.mem_map.mpr ⟨l₀, hl₀, ?_⟩
    rw [← hxx]
    split
    · rename_i hk
      exact (beq_iff_eq.mp hk)
    · rfl

theorem setLevel_sortedDesc {ls : List Level} (p : Int) (q : List Order)
    (h : SortedDesc ls) : SortedDesc (setLevel ls p q) :=
  @setLevel_pairwise (fun a b => b < a) ls p q h

theorem setLevel_sortedAsc {ls : List Level} (p : Int) (q : List Order)
    (h : SortedAsc ls) : SortedAsc (setLevel ls p q) :=
  @setLevel_pairwise (fun a b => a < b) ls p q h

theorem setLevel_ladderWF {s : Side} {ls : List Level} {p : Int} {q' : List Order}
    (h : LadderWF s ls) (hq' : QueueWF s p q') :
    LadderWF s (setLevel ls p q') := by
  rw [setLevel]
  split
  · intro l hl
    exact h l (List.mem_of_mem_filter hl)
  · rename_i hne
    intro l hl
    obtain ⟨l₀, hl₀, rfl⟩ := List.mem_map.mp hl
    by_cases hk : (l₀.1 == p) = true
    · rw [if_pos hk]
      refine ⟨?_, hq'⟩
      intro hc
      have hc' : q' = [] := hc
      exact hne (by simp [hc'])
    · rw [if_neg hk]
      exact h l₀ hl₀

theorem setLevel_entries {ls : List Level} {p : Int} {q' : List Order} :
    ∀ pe ∈ entriesOf (setLevel ls p q'),
      (pe.1 ≠ p ∧ pe ∈ entriesOf ls) ∨ (pe.1 = p ∧ pe.2 ∈ q') := by
  rw [setLevel]
  split
  · induction ls with
    | nil => simp [entriesOf]
    | cons hd rest ih =>
      rw [List.filter_cons]
      intro pe hpe
      by_cases hk : (hd.1 != p) = true
      · rw [if_pos hk] at hpe
        rw [entriesOf_cons] at hpe
        rcases List.mem_append.mp hpe with hpe | hpe
        · obtain ⟨o', ho', heq⟩ := List.mem_map.mp hpe
          left
          refine ⟨?_, ?_⟩
          · rw [← congrArg Prod.fst heq]
            simpa using hk
          · rw [entriesOf_cons]
            exact List.mem_append_left _ hpe
        · rcases ih pe hpe with ⟨hA, hB⟩ | hAB
          · exact Or.inl ⟨hA, by rw [entriesOf_cons]; exact List.mem_append_right _ hB⟩
          · exact Or.inr hAB
      · rw [if_neg hk] at hpe
        rcases ih pe hpe with ⟨hA, hB⟩ | hAB
        · exact Or.inl ⟨hA, by rw [entriesOf_cons]; exact List.mem_append_right _ hB⟩
        · exact Or.inr hAB
  · induction ls with
    | nil => simp [entriesOf]
    | cons hd rest ih =>
      rw [List.map_cons]
      intro pe hpe
      rw [entriesOf_cons] at hpe
      rcases List.mem_append.mp hpe with hpe | hpe
      · by_cases hk : (hd.1 == p) = true
        · rw [if_pos hk] at hpe
          obtain ⟨o', ho', heq⟩ := List.mem_map.mp hpe
          right
          constructor
          · rw [← congrArg Prod.fst heq]
          · rw [← congrArg Prod.snd heq]
            exact ho'
        · rw [if_neg hk] at hpe
          obtain ⟨o', ho', heq⟩ := List.mem_map.mp hpe
          left
          refine ⟨?_, ?_⟩
          · rw [← congrArg Prod.fst heq]
            simpa using hk
          · rw [entriesOf_cons]
            exact List.mem_append_left _ hpe
      · rcases ih pe hpe with ⟨hA, hB⟩ | hAB
        · exact Or.inl ⟨hA, by rw [entriesOf_cons]; exact List.mem_append_right _ hB⟩
        · exact Or.inr hAB

theorem setLevel_entries_keep {ls : List Level} {p : Int} {q' : List Order} :
    ∀ pe ∈ entriesOf ls, pe.1 ≠ p → pe ∈ entriesOf (setLevel ls p q') := by
  rw [setLevel]
  split
  · induction ls with
    | nil => simp [entriesOf]
    | cons hd rest ih =>
      intro pe hpe hnp
      rw [entriesOf_cons] at hpe
      rw [List.filter_cons]
      rcases List.mem_append.mp hpe with hpe | hpe
      · obtain ⟨o', ho', heq⟩ := List.mem_map.mp hpe
        have hkey : hd.1 = pe.1 := congrArg Prod.fst heq
        have hk : (hd.1 != p) = true := by
          simp only [bne_iff_ne, ne_eq]
          rw [hkey]
          exact hnp
        rw [if_pos hk, entriesOf_cons]
        exact List.mem_append_left _ hpe
      · by_cases hk : (hd.1 != p) = true
        · rw [if_pos hk, entriesOf_cons]
          exact List.mem_append_right _ (ih pe hpe hnp)
        · rw [if_neg hk]
          exact ih pe hpe hnp
  · induction ls with
    | nil => simp [entriesOf]
    | cons hd rest ih =>
      intro pe hpe hnp
      rw [entriesOf_cons] at hpe
      rw [List.map_cons, entriesOf_cons]
      rcases List.mem_append.mp hpe with hpe | hpe
      · obtain ⟨o', ho', heq⟩ := List.mem_map.mp hpe
        have hkey : hd.1 = pe.1 := congrArg Prod.fst heq
        have hk : ¬ (hd.1 == p) = true := by
          simp only [beq_iff_eq]
          rw [hkey]
          exact hnp
        rw [if_neg hk]
        exact List.mem_append_left _ hpe
      · exact List.mem_append_right _ (ih pe hpe hnp)

theorem setLevel_mem_new {ls : List Level} {p : Int} {q' : List Order}
    (hp : p ∈ keys ls) (hne : q' ≠ []) :
    ∀ o ∈ q', (p, o) ∈ entriesOf (setLevel ls p q') := by
  rw [setLevel]
  rw [if_neg (by simpa using hne)]
  induction ls with
  | nil => simp [keys] at hp
  | cons hd rest ih =>
    intro o ho
    rw [List.map_cons, entriesOf_cons]
    by_cases hk : (hd.1 == p) = true
    · rw [if_pos hk]
      exact List.mem_append_left _ (List.mem_map.mpr ⟨o, ho, rfl⟩)
    · rw [if_neg hk]
      refine List.mem_append_right _ ?_
      have hp' : p ∈ keys rest := by
        rw [keys_cons] at hp
        rcases List.mem_cons.mp hp with rfl | hp'
        · exact absurd (beq_self_eq_true _) hk
        · exact hp'
      exact ih hp' o ho

theorem level_ids_sublist {ls : List Level} {l : Level} (hl : l ∈ ls) :
    List.Sublist (l.2.map Order.id) (idsOf ls) := by
  induction ls with
  | nil => simp at hl
  | cons hd rest ih =>
    rw [idsOf_cons]
    rcases List.mem_cons.mp hl with rfl | hl
    · exact List.sublist_append_left _ _
    · exact (ih hl).trans (List.sublist_append_right _ _)

theorem setLevel_idsOf_sublist {ls : List Level} {p : Int} {dq q' : List Order}
    (hnd : (keys ls).Nodup) (hlook : lookupLevel ls p = some dq)
    (hsub : List.Sublist q' dq) :
    List.Sublist (idsOf (setLevel ls p q')) (idsOf ls) := by
  induction ls with
  | nil => simp [lookupLevel] at hlook
  | cons hd rest ih =>
    rw [keys_cons, List.nodup_cons] at hnd
    by_cases hk : hd.1 = p
    · rw [lookupLevel_cons_eq hk] at hlook
      have hdq : dq = hd.2 := (Option.some.inj hlook).symm
      subst hdq
      have hnop : ∀ l ∈ rest, l.1 ≠ p := by
        intro l hl hc
        refine hnd.1 ?_
        rw [hk, ← hc]
        exact List.mem_map.mpr ⟨l, hl, rfl⟩
      rw [setLevel]
      split
      · rw [List.filter_cons, if_neg (by simp [hk])]
        have hfil : List.filter (fun l => l.1 != p) rest = rest := by
          refine List.filter_eq_self.mpr ?_
          intro l hl
          simpa using hnop l hl
        rw [hfil, idsOf_cons]
        exact List.sublist_append_right _ _
      · rw [List.map_cons, if_pos (by simp [hk])]
        have hmap : rest.map (fun l => if (l.1 == p) = true then ((p, q') : Level) else l)
            = rest := by
          have hcongr : rest.map (fun l => if (l.1 == p) = true then ((p, q') : Level) else l)
              = rest.map id := by
            refine List.map_congr_left ?_
            intro l hl
            rw [if_neg (by simpa using hnop l hl)]
            rfl
          rw [hcongr, List.map_id]
        rw [hmap, idsOf_cons, idsOf_cons]
        exact (hsub.map Order.id).append (List.Sublist.refl _)
    · rw [lookupLevel_cons_ne hk] at hlook
      have hih := ih hnd.2 hlook
      rw [setLevel]
      split
      · rename_i hq
        rw [List.filter_cons, if_pos (by simp [hk])]
        rw [idsOf_cons, idsOf_cons]
        refine List.Sublist.append_left ?_ _
        rw [setLevel, if_pos hq] at hih
        exact hih
      · rename_i hq
        rw [List.map_cons, if_neg (by simp [hk])]
        rw [idsOf_cons, idsOf_cons]
        refine List.Sublist.append_left ?_ _
        rw [setLevel, if_neg hq] at hih
        exact hih

end XChange

namespace XChange

theorem cancel_eq_none (b : Book) (i : Nat) (h : idxFind b.id_index i = none) :
    cancel b i = (false, b) := by
  rw [cancel, h]

theorem cancel_eq_buy_nolevel (b : Book) (i : Nat) (price : Int)
    (h : idxFind b.id_index i = some (Side.Buy, price))
    (hl : lookupLevel b.bids price = none) : cancel b i = (false, b) := by
  simp [cancel, h, hl]

theorem cancel_eq_buy_found (b : Book) (i : Nat) (price : Int) (dq : List Order)
    (h : idxFind b.id_index i = some (Side.Buy, price))
    (hl : lookupLevel b.bids price = some dq) :
    cancel b i =
      (if dq.any (fun o => o.id == i) then
        (true, { b with bids := setLevel b.bids price (removeFirstById dq i),
                        id_index := idxErase b.id_index i })
      else (false, b)) := by
  simp [cancel, h, hl]

theorem cancel_eq_sell_nolevel (b : Book) (i : Nat) (price : Int)
    (h : idxFind b.id_index i = some (Side.Sell, price))
    (hl : lookupLevel b.asks price = none) : cancel b i = (false, b) := by
  simp [cancel, h, hl]

theorem cancel_eq_sell_found (b : Book) (i : Nat) (price : Int) (dq : List Order)
    (h : idxFind b.id_index i = some (Side.Sell, price))
    (hl : lookupLevel b.asks price = some dq) :
    cancel b i =
      (if dq.any (fun o => o.id == i) then
        (true, { b with asks := setLevel b.asks price (removeFirstById dq i),
                        id_index := idxErase b.id_index i })
      else (false, b)) := by
  simp [cancel, h, hl]

/-- `cancel` preserves the book invariant. -/
theorem cancel_WF (b : Book) (i : Nat) (hwf : BookWF b) : BookWF (cancel b i).2 := by
  have hres := hwf.idsNodup
  rw [restingIds] at hres
  cases hfind : idxFind b.id_index i with
  | none =>
    rw [cancel_eq_none b i hfind]
    exact hwf
  | some sp =>
    obtain ⟨side, price⟩ := sp
    cases side with
    | Buy =>
      cases hlook : lookupLevel b.bids price with
      | none =>
        rw [cancel_eq_buy_nolevel b i price hfind hlook]
        exact hwf
      | some dq =>
        rw [cancel_eq_buy_found b i price dq hfind hlook]
        by_cases hany : dq.any (fun o => o.id == i) = true
        · rw [if_pos hany]
          have hmem : (price, dq) ∈ b.bids := lookupLevel_eq_some hlook
          have hqWF : QueueWF Side.Buy price dq := (hwf.bidsWF _ hmem).2
          have hq'WF : QueueWF Side.Buy price (removeFirstById dq i) :=
            fun o' ho' => hqWF o' ((removeFirstById_sublist dq i).subset ho')
          have hbidsN : (idsOf b.bids).Nodup := hres.of_append_left
          have hdqN : (dq.map Order.id).Nodup := hbidsN.sublist (level_ids_sublist hmem)
          have hsubL : List.Sublist (idsOf (setLevel b.bids price (removeFirstById dq i)))
              (idsOf b.bids) :=
            setLevel_idsOf_sublist hwf.bidsSorted.keysNodupDesc hlook
              (removeFirstById_sublist dq i)
          refine ⟨setLevel_sortedDesc price _ hwf.bidsSorted, hwf.asksSorted,
            setLevel_ladderWF hwf.bidsWF hq'WF, hwf.asksWF, ?_, ?_, ?_, ?_⟩
          · exact hres.sublist (hsubL.append (List.Sublist.refl _))
          · intro pb hpb pa hpa
            exact hwf.uncrossed pb (setLevel_keys hpb) pa hpa
          · intro e he
            obtain ⟨hein, hne⟩ := idxErase_mem.mp he
            obtain ⟨ii, s, pp⟩ := e
            obtain ⟨o₀, ho₀, hido⟩ := hwf.idx_to_book (ii, s, pp) hein
            cases s with
            | Sell => exact ⟨o₀, ho₀, hido⟩
            | Buy =>
              by_cases hp : pp = price
              · subst hp
                obtain ⟨q₀, hq₀look, ho₀q⟩ :=
                  entriesOf_lookup hwf.bidsSorted.keysNodupDesc ho₀
                have hq₀ : q₀ = dq := by
                  rw [hq₀look] at hlook
                  exact Option.some.inj hlook
                rw [hq₀] at ho₀q
                have ho₀q' : o₀ ∈ removeFirstById dq i :=
                  removeFirstById_mem ho₀q (by rw [hido]; exact hne)
                have hkeymem : pp ∈ keys b.bids :=
                  List.mem_map.mpr ⟨(pp, dq), hmem, rfl⟩
                exact ⟨o₀, setLevel_mem_new hkeymem (List.ne_nil_of_mem ho₀q') o₀ ho₀q',
                  hido⟩
              · exact ⟨o₀, setLevel_entries_keep _ ho₀ hp, hido⟩
          · intro s pe hpe
            cases s with
            | Sell =>
              have hne2 : (pe.2).id ≠ i := by
                intro hc
                have h1 := hwf.book_to_idx Side.Sell pe hpe
                rw [hc, hfind] at h1
                simp at h1
              rw [idxFind_erase, if_neg hne2]
              exact hwf.book_to_idx Side.Sell pe hpe
            | Buy =>
              rcases setLevel_entries pe hpe with ⟨hnp, hold⟩ | ⟨hp1, hq'mem⟩
              · have hne2 : (pe.2).id ≠ i := by
                  intro hc
                  have h1 := hwf.book_to_idx Side.Buy pe hold
                  rw [hc, hfind] at h1
                  simp only [Option.some.injEq, Prod.mk.injEq] at h1
                  exact hnp h1.2.symm
                rw [idxFind_erase, if_neg hne2]
                exact hwf.book_to_idx Side.Buy pe hold
              · have hne2 : (pe.2).id ≠ i := by
                  intro hc
                  exact removeFirstById_not_mem hdqN
                    (hc ▸ List.mem_map.mpr ⟨pe.2, hq'mem, rfl⟩)
                have hdqmem : pe.2 ∈ dq := (removeFirstById_sublist dq i).subset hq'mem
                have hentry : ((price : Int), pe.2) ∈ entriesOf b.bids :=
                  mem_entriesOf.mpr ⟨(price, dq), hmem, rfl, hdqmem⟩
                have hold := hwf.book_to_idx Side.Buy (price, pe.2) hentry
                rw [idxFind_erase, if_neg hne2, hp1]
                exact hold
        · rw [if_neg hany]
          exact hwf
    | Sell =>
      cases hlook : lookupLevel b.asks price with
      | none =>
        rw [cancel_eq_sell_nolevel b i price hfind hlook]
        exact hwf
      | some dq =>
        rw [cancel_eq_sell_found b i price dq hfind hlook]
        by_cases hany : dq.any (fun o => o.id == i) = true
        · rw [if_pos hany]
          have hmem : (price, dq) ∈ b.asks := lookupLevel_eq_some hlook
          have hqWF : QueueWF Side.Sell price dq := (hwf.asksWF _ hmem).2
          have hq'WF : QueueWF Side.Sell price (removeFirstById dq i) :=
            fun o' ho' => hqWF o' ((removeFirstById_sublist dq i).subset ho')
          have hasksN : (idsOf b.asks).Nodup := hres.of_append_right
          have hdqN : (dq.map Order.id).Nodup := hasksN.sublist (level_ids_sublist hmem)
          have hsubL : List.Sublist (idsOf (setLevel b.asks price (removeFirstById dq i)))
              (idsOf b.asks) :=
            setLevel_idsOf_sublist hwf.asksSorted.keysNodupAsc hlook
              (removeFirstById_sublist dq i)
          refine ⟨hwf.bidsSorted, setLevel_sortedAsc price _ hwf.asksSorted,
            hwf.bidsWF, setLevel_ladderWF hwf.asksWF hq'WF, ?_, ?_, ?_, ?_⟩
          · exact hres.sublist ((List.Sublist.refl _).append hsubL)
          · intro pb hpb pa hpa
            exact hwf.uncrossed pb hpb pa (setLevel_keys hpa)
          · intro e he
            obtain ⟨hein, hne⟩ := idxErase_mem.mp he
            obtain ⟨ii, s, pp⟩ := e
            obtain ⟨o₀, ho₀, hido⟩ := hwf.idx_to_book (ii, s, pp) hein
            cases s with
            | Buy => exact ⟨o₀, ho₀, hido⟩
            | Sell =>
              by_cases hp : pp = price
              · subst hp
                obtain ⟨q₀, hq₀look, ho₀q⟩ :=
                  entriesOf_lookup hwf.asksSorted.keysNodupAsc ho₀
                have hq₀ : q₀ = dq := by
                  rw [hq₀look] at hlook
                  exact Option.some.inj hlook
                rw [hq₀] at ho₀q
                have ho₀q' : o₀ ∈ removeFirstById dq i :=
                  removeFirstById_mem ho₀q (by rw [hido]; exact hne)
                have hkeymem : pp ∈ keys b.asks :=
                  List.mem_map.mpr ⟨(pp, dq), hmem, rfl⟩
                exact ⟨o₀, setLevel_mem_new hkeymem (List.ne_nil_of_mem ho₀q') o₀ ho₀q',
                  hido⟩
              · exact ⟨o₀, setLevel_entries_keep _ ho₀ hp, hido⟩
          · intro s pe hpe
            cases s with
            | Buy =>
              have hne2 : (pe.2).id ≠ i := by
                intro hc
                have h1 := hwf.book_to_idx Side.Buy pe hpe
                rw [hc, hfind] at h1
                simp at h1
              rw [idxFind_erase, if_neg hne2]
              exact hwf.book_to_idx Side.Buy pe hpe
            | Sell =>
              rcases setLevel_entries pe hpe with ⟨hnp, hold⟩ | ⟨hp1, hq'mem⟩
              · have hne2 : (pe.2).id ≠ i := by
                  intro hc
                  have h1 := hwf.book_to_idx Side.Sell pe hold
                  rw [hc, hfind] at h1
                  simp only [Option.some.injEq, Prod.mk.injEq] at h1
                  exact hnp h1.2.symm
                rw [idxFind_erase, if_neg hne2]
                exact hwf.book_to_idx Side.Sell pe hold
              · have hne2 : (pe.2).id ≠ i := by
                  intro hc
                  exact removeFirstById_not_mem hdqN
                    (hc ▸ List.mem_map.mpr ⟨pe.2, hq'mem, rfl⟩)
                have hdqmem : pe.2 ∈ dq := (removeFirstById_sublist dq i).subset hq'mem
                have hentry : ((price : Int), pe.2) ∈ entriesOf b.asks :=
                  mem_entriesOf.mpr ⟨(price, dq), hmem, rfl, hdqmem⟩
                have hold := hwf.book_to_idx Side.Sell (price, pe.2) hentry
                rw [idxFind_erase, if_neg hne2, hp1]
                exact hold
        · rw [if_neg hany]
          exact hwf

end XChange

namespace XChange

/-! ### Run-level bookkeeping -/

/-- The resting ids after an `add_order` are among the incoming id and the
previously resting ids. -/
theorem add_order_restingIds (b : Book) (o : Order) :
    restingIds (add_order b o).2 ⊆ o.id :: restingIds b := by
  cases hs : o.side with
  | Buy =>
    have hgoal : (add_order b o).2 =
        (if 0 < (matchAsks o b.asks).taker.qty
         then enqueue { b with asks := (matchAsks o b.asks).levels,
                               id_index := idxEraseAll b.id_index (matchAsks o b.asks).removed }
                (matchAsks o b.asks).taker
         else { b with asks := (matchAsks o b.asks).levels,
                       id_index := idxEraseAll b.id_index (matchAsks o b.asks).removed }) := by
      rw [add_order_eq_buy b o hs]
      by_cases henq : 0 < (matchAsks o b.asks).taker.qty <;> simp [henq]
    rw [hgoal]
    set r : LMatch := matchAsks o b.asks with hr
    have hids := matchAsks_ids b.asks o
    have hlevsub : ∀ x ∈ idsOf r.levels, x ∈ idsOf b.asks := by
      intro x hx
      rw [hids]
      exact List.mem_append_right _ hx
    obtain ⟨htkid, htks, -⟩ := matchAsks_taker_fields b.asks o
    by_cases henq : 0 < r.taker.qty
    · rw [if_pos henq, enqueue_eq_buy _ _ (htks.trans hs)]
      intro x hx
      rcases List.mem_append.mp hx with hx | hx
      · have hperm := (insertBid_orders_perm r.taker b.bids).map Order.id
        rcases List.mem_cons.mp (hperm.mem_iff.mp hx) with rfl | hx
        · exact List.mem_cons.mpr (Or.inl htkid)
        · exact List.mem_cons_of_mem _ (List.mem_append_left _ hx)
      · exact List.mem_cons_of_mem _ (List.mem_append_right _ (hlevsub _ hx))
    · rw [if_neg henq]
      intro x hx
      rcases List.mem_append.mp hx with hx | hx
      · exact List.mem_cons_of_mem _ (List.mem_append_left _ hx)
      · exact List.mem_cons_of_mem _ (List.mem_append_right _ (hlevsub _ hx))
  | Sell =>
    have hgoal : (add_order b o).2 =
        (if 0 < (matchBids o b.bids).taker.qty
         then enqueue { b with bids := (matchBids o b.bids).levels,
                               id_index := idxEraseAll b.id_index (matchBids o b.bids).removed }
                (matchBids o b.bids).taker
         else { b with bids := (matchBids o b.bids).levels,
                       id_index := idxEraseAll b.id_index (matchBids o b.bids).removed }) := by
      rw [add_order_eq_sell b o hs]
      by_cases henq : 0 < (matchBids o b.bids).taker.qty <;> simp [henq]
    rw [hgoal]
    set r : LMatch := matchBids o b.bids with hr
    have hids := matchBids_ids b.bids o
    have hlevsub : ∀ x ∈ idsOf r.levels, x ∈ idsOf b.bids := by
      intro x hx
      rw [hids]
      exact List.mem_append_right _ hx
    obtain ⟨htkid, htks, -⟩ := matchBids_taker_fields b.bids o
    by_cases henq : 0 < r.taker.qty
    · rw [if_pos henq, enqueue_eq_sell _ _ (htks.trans hs)]
      intro x hx
      rcases List.mem_append.mp hx with hx | hx
      · exact List.mem_cons_of_mem _ (List.mem_append_left _ (hlevsub _ hx))
      · have hperm := (insertAsk_orders_perm r.taker b.asks).map Order.id
        rcases List.mem_cons.mp (hperm.mem_iff.mp hx) with rfl | hx
        · exact List.mem_cons.mpr (Or.inl htkid)
        · exact List.mem_cons_of_mem _ (List.mem_append_right _ hx)
    · rw [if_neg henq]
      intro x hx
      rcases List.mem_append.mp hx with hx | hx
      · exact List.mem_cons_of_mem _ (List.mem_append_left _ (hlevsub _ hx))
      · exact List.mem_cons_of_mem _ (List.mem_append_right _ hx)

/-- Cancellation only removes resting ids. -/
theorem cancel_restingIds (b : Book) (i : Nat) (hwf : BookWF b) :
    restingIds (cancel b i).2 ⊆ restingIds b := by
  cases hfind : idxFind b.id_index i with
  | none =>
    rw [cancel_eq_none b i hfind]
    exact fun x hx => hx
  | some sp =>
    obtain ⟨side, price⟩ := sp
    cases side with
    | Buy =>
      cases hlook : lookupLevel b.bids price with
      | none =>
        rw [cancel_eq_buy_nolevel b i price hfind hlook]
        exact fun x hx => hx
      | some dq =>
        rw [cancel_eq_buy_found b i price dq hfind hlook]
        by_cases hany : dq.any (fun o => o.id == i) = true
        · rw [if_pos hany]
          have hsubL := setLevel_idsOf_sublist hwf.bidsSorted.keysNodupDesc hlook
            (removeFirstById_sublist dq i)
          exact (hsubL.append (List.Sublist.refl _)).subset
        · rw [if_neg hany]
          exact fun x hx => hx
    | Sell =>
      cases hlook : lookupLevel b.asks price with
      | none =>
        rw [cancel_eq_sell_nolevel b i price hfind hlook]
        exact fun x hx => hx
      | some dq =>
        rw [cancel_eq_sell_found b i price dq hfind hlook]
        by_cases hany : dq.any (fun o => o.id == i) = true
        · rw [if_pos hany]
          have hsubL := setLevel_idsOf_sublist hwf.asksSorted.keysNodupAsc hlook
            (removeFirstById_sublist dq i)
          exact ((List.Sublist.refl _).append hsubL).subset
        · rw [if_neg hany]
          exact fun x hx => hx

/-- The book invariant holds along any valid operation sequence, resting
ids stay inside the used-id set, and absent ids stay absent. -/
theorem runOps_preserve (ops : List Op) : ∀ (b : Book) (U : List Nat),
    BookWF b → restingIds b ⊆ U → OpsValid U ops →
    BookWF (runOps b ops) ∧ restingIds (runOps b ops) ⊆ U ++ addIds ops ∧
    (∀ i ∈ U, i ∉ restingIds b → i ∉ restingIds (runOps b ops)) := by
  induction ops with
  | nil =>
    intro b U hwf hsub _
    exact ⟨hwf, fun x hx => List.mem_append_left _ (hsub hx), fun i _ hni => hni⟩
  | cons op rest ih =>
    intro b U hwf hsub hv
    cases op with
    | add o =>
      obtain ⟨hq, hfreshU, hv'⟩ := hv
      have hfresh : o.id ∉ restingIds b := fun hx => hfreshU (hsub hx)
      have hwf' : BookWF (add_order b o).2 := add_order_WF b o hwf hfresh
      have hsub' : restingIds (add_order b o).2 ⊆ o.id :: U := by
        intro x hx
        rcases List.mem_cons.mp (add_order_restingIds b o hx) with rfl | hx
        · exact List.mem_cons_self _ _
        · exact List.mem_cons_of_mem _ (hsub hx)
      obtain ⟨hW, hS, hP⟩ := ih (add_order b o).2 (o.id :: U) hwf' hsub' hv'
      refine ⟨hW, ?_, ?_⟩
      · intro x hx
        have := hS hx
        rcases List.mem_append.mp this with hx' | hx'
        · rcases List.mem_cons.mp hx' with rfl | hx'
          · exact List.mem_append_right _ (List.mem_cons_self _ _)
          · exact List.mem_append_left _ hx'
        · exact List.mem_append_right _ (List.mem_cons_of_mem _ hx')
      · intro i hiU hni
        refine hP i (List.mem_cons_of_mem _ hiU) ?_
        intro hx
        rcases List.mem_cons.mp (add_order_restingIds b o hx) with heq | hx'
        · exact hfreshU (heq ▸ hiU)
        · exact hni hx'
    | cancel j =>
      have hwf' : BookWF (cancel b j).2 := cancel_WF b j hwf
      have hsub' : restingIds (cancel b j).2 ⊆ U :=
        fun x hx => hsub (cancel_restingIds b j hwf hx)
      obtain ⟨hW, hS, hP⟩ := ih (cancel b j).2 U hwf' hsub' hv
      exact ⟨hW, hS, fun i hiU hni =>
        hP i hiU (fun hx => hni (cancel_restingIds b j hwf hx))⟩

/-- The empty book satisfies the invariant. -/
theorem emptyBook_WF : BookWF emptyBook := by
  refine ⟨List.Pairwise.nil, List.Pairwise.nil, ?_, ?_, List.nodup_nil, ?_, ?_, ?_⟩
  · intro l hl
    simp [emptyBook] at hl
  · intro l hl
    simp [emptyBook] at hl
  · intro pb hpb
    simp [emptyBook, keys] at hpb
  · intro e he
    simp [emptyBook] at he
  · intro s pe hpe
    cases s <;> simp [emptyBook, ladderOf, entriesOf] at hpe

end XChange

namespace XChange

theorem BookWF.ladder_wf {b : Book} (h : BookWF b) : ∀ s, LadderWF s (ladderOf b s)
  | Side.Buy => h.bidsWF
  | Side.Sell => h.asksWF

theorem BookWF.ladder_keys_nodup {b : Book} (h : BookWF b) :
    ∀ s, (keys (ladderOf b s)).Nodup
  | Side.Buy => h.bidsSorted.keysNodupDesc
  | Side.Sell => h.asksSorted.keysNodupAsc

theorem BookWF.ladder_ids_nodup {b : Book} (h : BookWF b) :
    ∀ s, (idsOf (ladderOf b s)).Nodup
  | Side.Buy => h.idsNodup.of_append_left
  | Side.Sell => h.idsNodup.of_append_right

/-- Under the invariant, a resting id has an index entry. -/
theorem resting_mem_idxFind (b : Book) (i : Nat) (hwf : BookWF b)
    (h : i ∈ restingIds b) : ∃ sp, idxFind b.id_index i = some sp := by
  rcases List.mem_append.mp h with h | h
  · obtain ⟨o, ho, hid⟩ := mem_idsOf.mp h
    obtain ⟨p, hp⟩ := ordersOf_entries ho
    refine ⟨(Side.Buy, p), ?_⟩
    rw [← hid]
    exact hwf.book_to_idx Side.Buy (p, o) hp
  · obtain ⟨o, ho, hid⟩ := mem_idsOf.mp h
    obtain ⟨p, hp⟩ := ordersOf_entries ho
    refine ⟨(Side.Sell, p), ?_⟩
    rw [← hid]
    exact hwf.book_to_idx Side.Sell (p, o) hp

/-- Under the invariant, `cancel` succeeds exactly on resting ids. -/
theorem cancel_true_iff (b : Book) (i : Nat) (hwf : BookWF b) :
    (cancel b i).1 = true ↔ i ∈ restingIds b := by
  cases hfind : idxFind b.id_index i with
  | none =>
    rw [cancel_eq_none b i hfind]
    simp only [Bool.false_eq_true, false_iff]
    intro hmem
    obtain ⟨sp, hsp⟩ := resting_mem_idxFind b i hwf hmem
    rw [hfind] at hsp
    exact Option.noConfusion hsp
  | some sp =>
    obtain ⟨side, price⟩ := sp
    have hin : ((i, side, price) : Nat × Side × Int) ∈ b.id_index := idxFind_mem hfind
    obtain ⟨o₀, ho₀, hid₀⟩ := hwf.idx_to_book (i, side, price) hin
    have ho₀e : ((price : Int), o₀) ∈ entriesOf (ladderOf b side) := ho₀
    have hid₀e : o₀.id = i := hid₀
    obtain ⟨q₀, hq₀look, ho₀q⟩ := entriesOf_lookup (hwf.ladder_keys_nodup side) ho₀e
    have hresting : i ∈ restingIds b := by
      have hords : o₀ ∈ ordersOf (ladderOf b side) := entriesOf_orders ho₀e
      have hmm : o₀.id ∈ idsOf (ladderOf b side) := List.mem_map.mpr ⟨o₀, hords, rfl⟩
      rw [hid₀e] at hmm
      cases side with
      | Buy => exact List.mem_append_left _ hmm
      | Sell => exact List.mem_append_right _ hmm
    cases side with
    | Buy =>
      have hq₀b : lookupLevel b.bids price = some q₀ := hq₀look
      cases hlook : lookupLevel b.bids price with
      | none =>
        rw [hlook] at hq₀b
        exact Option.noConfusion hq₀b
      | some dq =>
        have hq₀ : q₀ = dq := by
          rw [hq₀b] at hlook
          exact Option.some.inj hlook
        rw [hq₀] at ho₀q
        have hany : dq.any (fun o => o.id == i) = true :=
          List.any_eq_true.mpr ⟨o₀, ho₀q, beq_iff_eq.mpr hid₀e⟩
        rw [cancel_eq_buy_found b i price dq hfind hlook, if_pos hany]
        simpa using hresting
    | Sell =>
      have hq₀b : lookupLevel b.asks price = some q₀ := hq₀look
      cases hlook : lookupLevel b.asks price with
      | none =>
        rw [hlook] at hq₀b
        exact Option.noConfusion hq₀b
      | some dq =>
        have hq₀ : q₀ = dq := by
          rw [hq₀b] at hlook
          exact Option.some.inj hlook
        rw [hq₀] at ho₀q
        have hany : dq.any (fun o => o.id == i) = true :=
          List.any_eq_true.mpr ⟨o₀, ho₀q, beq_iff_eq.mpr hid₀e⟩
        rw [cancel_eq_sell_found b i price dq hfind hlook, if_pos hany]
        simpa using hresting

/-- After `cancel b i` the id `i` is never resting. -/
theorem cancel_not_resting (b : Book) (i : Nat) (hwf : BookWF b) :
    i ∉ restingIds (cancel b i).2 := by
  cases hfind : idxFind b.id_index i with
  | none =>
    rw [cancel_eq_none b i hfind]
    intro hmem
    obtain ⟨sp, hsp⟩ := resting_mem_idxFind b i hwf hmem
    rw [hfind] at hsp
    exact Option.noConfusion hsp
  | some sp =>
    obtain ⟨side, price⟩ := sp
    have hin : ((i, side, price) : Nat × Side × Int) ∈ b.id_index := idxFind_mem hfind
    obtain ⟨o₀, ho₀, hid₀⟩ := hwf.idx_to_book (i, side, price) hin
    have ho₀e : ((price : Int), o₀) ∈ entriesOf (ladderOf b side) := ho₀
    have hid₀e : o₀.id = i := hid₀
    obtain ⟨q₀, hq₀look, ho₀q⟩ := entriesOf_lookup (hwf.ladder_keys_nodup side) ho₀e
    have hres := hwf.idsNodup
    rw [restingIds] at hres
    cases side with
    | Buy =>
      have hq₀b : lookupLevel b.bids price = some q₀ := hq₀look
      cases hlook : lookupLevel b.bids price with
      | none =>
        rw [hlook] at hq₀b
        exact Option.noConfusion hq₀b
      | some dq =>
        have hq₀ : q₀ = dq := by
          rw [hq₀b] at hlook
          exact Option.some.inj hlook
        rw [hq₀] at ho₀q
        have hany : dq.any (fun o => o.id == i) = true :=
          List.any_eq_true.mpr ⟨o₀, ho₀q, beq_iff_eq.mpr hid₀e⟩
        rw [cancel_eq_buy_found b i price dq hfind hlook, if_pos hany]
        have hmem : (price, dq) ∈ b.bids := lookupLevel_eq_some hlook
        have hbidsN : (idsOf b.bids).Nodup := hres.of_append_left
        have hdqN : (dq.map Order.id).Nodup := hbidsN.sublist (level_ids_sublist hmem)
        intro hmem2
        rcases List.mem_append.mp hmem2 with hx | hx
        · obtain ⟨o', ho', hid'⟩ := mem_idsOf.mp hx
          obtain ⟨p', hp'⟩ := ordersOf_entries ho'
          rcases setLevel_entries _ hp' with ⟨hnp, hold⟩ | ⟨hp1, hq2mem⟩
          · have h1 := hwf.book_to_idx Side.Buy (p', o') hold
            rw [hid', hfind] at h1
            simp only [Option.some.injEq, Prod.mk.injEq] at h1
            exact hnp h1.2.symm
          · refine absurd ?_ (@removeFirstById_not_mem dq i hdqN)
            have hmm2 : o'.id ∈ (removeFirstById dq i).map Order.id :=
              List.mem_map.mpr ⟨o', hq2mem, rfl⟩
            rwa [hid'] at hmm2
        · have hibids : i ∈ idsOf b.bids := by
            have hords : o₀ ∈ ordersOf (ladderOf b Side.Buy) := entriesOf_orders ho₀e
            have hmm : o₀.id ∈ idsOf (ladderOf b Side.Buy) :=
              List.mem_map.mpr ⟨o₀, hords, rfl⟩
            rwa [hid₀e] at hmm
          exact List.disjoint_of_nodup_append hres hibids hx
    | Sell =>
      have hq₀b : lookupLevel b.asks price = some q₀ := hq₀look
      cases hlook : lookupLevel b.asks price with
      | none =>
        rw [hlook] at hq₀b
        exact Option.noConfusion hq₀b
      | some dq =>
        have hq₀ : q₀ = dq := by
          rw [hq₀b] at hlook
          exact Option.some.inj hlook
        rw [hq₀] at ho₀q
        have hany : dq.any (fun o => o.id == i) = true :=
          List.any_eq_true.mpr ⟨o₀, ho₀q, beq_iff_eq.mpr hid₀e⟩
        rw [cancel_eq_sell_found b i price dq hfind hlook, if_pos hany]
        have hmem : (price, dq) ∈ b.asks := lookupLevel_eq_some hlook
        have hasksN : (idsOf b.asks).Nodup := hres.of_append_right
        have hdqN : (dq.map Order.id).Nodup := hasksN.sublist (level_ids_sublist hmem)
        intro hmem2
        rcases List.mem_append.mp hmem2 with hx | hx
        · have hiasks : i ∈ idsOf b.asks := by
            have hords : o₀ ∈ ordersOf (ladderOf b Side.Sell) := entriesOf_orders ho₀e
            have hmm : o₀.id ∈ idsOf (ladderOf b Side.Sell) :=
              List.mem_map.mpr ⟨o₀, hords, rfl⟩
            rwa [hid₀e] at hmm
          exact List.disjoint_of_nodup_append hres hx hiasks
        · obtain ⟨o', ho', hid'⟩ := mem_idsOf.mp hx
          obtain ⟨p', hp'⟩ := ordersOf_entries ho'
          rcases setLevel_entries _ hp' with ⟨hnp, hold⟩ | ⟨hp1, hq2mem⟩
          · have h1 := hwf.book_to_idx Side.Sell (p', o') hold
            rw [hid', hfind] at h1
            simp only [Option.some.injEq, Prod.mk.injEq] at h1
            exact hnp h1.2.symm
          · refine absurd ?_ (@removeFirstById_not_mem dq i hdqN)
            have hmm2 : o'.id ∈ (removeFirstById dq i).map Order.id :=
              List.mem_map.mpr ⟨o', hq2mem, rfl⟩
            rwa [hid'] at hmm2

theorem runOrders_book_eq (os : List Order) : ∀ b : Book,
    (runOrders b os).1 = runOps b (os.map Op.add) := by
  induction os with
  | nil => intro b; rfl
  | cons o rest ih =>
    intro b
    show (runOrders (add_order b o).2 rest).1 = runOps (add_order b o).2 (rest.map Op.add)
    exact ih _

theorem opsValid_of_orders (os : List Order) : ∀ U : List Nat,
    (∀ o ∈ os, 0 < o.qty) → ((os.map Order.id).Nodup) → (∀ o ∈ os, o.id ∉ U) →
    OpsValid U (os.map Op.add) := by
  induction os with
  | nil =>
    intro U _ _ _
    trivial
  | cons o rest ih =>
    intro U hq hnd hU
    simp only [List.map_cons, List.nodup_cons] at hnd
    refine ⟨hq o (List.mem_cons_self _ _), hU o (List.mem_cons_self _ _), ?_⟩
    refine ih (o.id :: U) (fun o' ho' => hq o' (List.mem_cons_of_mem _ ho')) hnd.2 ?_
    intro o' ho' hc
    rcases List.mem_cons.mp hc with heq | hc
    · exact hnd.1 (heq ▸ List.mem_map.mpr ⟨o', ho', rfl⟩)
    · exact hU o' (List.mem_cons_of_mem _ ho') hc

theorem restingIds_empty : restingIds emptyBook = [] := rfl

end XChange

namespace XChange

/-- C3: after every `add_order` — for any sequence of submissions with
positive quantity and fresh ids from the empty book (the statement
quantifies over all valid sequences, hence applies to every prefix) — the
book is never crossed at rest: either a side is empty or
`best_bid < best_ask`. -/
theorem book_never_crossed (os : List Order) (hq : ∀ o ∈ os, 0 < o.qty)
    (hids : (os.map Order.id).Nodup) :
    (runOrders emptyBook os).1.bids = [] ∨ (runOrders emptyBook os).1.asks = [] ∨
    ∃ pb pa, best_bid (runOrders emptyBook os).1 = some pb ∧
      best_ask (runOrders emptyBook os).1 = some pa ∧ pb < pa := by
  have hval : OpsValid [] (os.map Op.add) :=
    opsValid_of_orders os [] hq hids (fun o _ => List.not_mem_nil _)
  obtain ⟨hwf, -, -⟩ := runOps_preserve (os.map Op.add) emptyBook [] emptyBook_WF
    (by rw [restingIds_empty]; exact List.nil_subset _) hval
  rw [runOrders_book_eq os emptyBook]
  cases hbids : (runOps emptyBook (os.map Op.add)).bids with
  | nil => exact Or.inl rfl
  | cons lb rb =>
    cases hasks : (runOps emptyBook (os.map Op.add)).asks with
    | nil => exact Or.inr (Or.inl rfl)
    | cons la ra =>
      refine Or.inr (Or.inr ⟨lb.1, la.1, ?_, ?_, ?_⟩)
      · simp [best_bid, hbids]
      · simp [best_ask, hasks]
      · refine hwf.uncrossed lb.1 ?_ la.1 ?_
        · rw [hbids, keys_cons]
          exact List.mem_cons_self _ _
        · rw [hasks, keys_cons]
          exact List.mem_cons_self _ _

/-- C3 witness: a two-sided book that rests uncrossed. -/
theorem book_never_crossed_witness :
    (∀ o ∈ ([⟨1, Side.Buy, 100, 10⟩, ⟨2, Side.Sell, 105, 5⟩] : List Order), 0 < o.qty) ∧
    ((([⟨1, Side.Buy, 100, 10⟩, ⟨2, Side.Sell, 105, 5⟩] : List Order).map Order.id).Nodup) ∧
    ((runOrders emptyBook [⟨1, Side.Buy, 100, 10⟩, ⟨2, Side.Sell, 105, 5⟩]).1.bids = [] ∨
     (runOrders emptyBook [⟨1, Side.Buy, 100, 10⟩, ⟨2, Side.Sell, 105, 5⟩]).1.asks = [] ∨
     ∃ pb pa,
       best_bid (runOrders emptyBook [⟨1, Side.Buy, 100, 10⟩, ⟨2, Side.Sell, 105, 5⟩]).1 =
         some pb ∧
       best_ask (runOrders emptyBook [⟨1, Side.Buy, 100, 10⟩, ⟨2, Side.Sell, 105, 5⟩]).1 =
         some pa ∧ pb < pa) :=
  ⟨by decide, by decide, book_never_crossed _ (by decide) (by decide)⟩

/-- C6: after any valid interleaving of positive-quantity fresh-id
`add_order` calls and `cancel` calls from the empty book, the id index is
consistent with the ladders: every index entry names exactly one resting
order — with positive remaining quantity — in the queue found at its
recorded (side, price); every resting order's id is indexed at that
order's (side, price); and every stored price level has a non-empty
queue (a level absent from the map trivially has none). -/
theorem runOps_index_consistent (ops : List Op) (h : OpsValid [] ops) :
    (∀ e ∈ (runOps emptyBook ops).id_index,
        ∃ q, lookupLevel (ladderOf (runOps emptyBook ops) e.2.1) e.2.2 = some q ∧
          q.countP (fun o => o.id == e.1) = 1 ∧ ∀ o ∈ q, 0 < o.qty) ∧
    (∀ pe ∈ entriesOf (runOps emptyBook ops).bids,
        idxFind (runOps emptyBook ops).id_index (pe.2).id = some (Side.Buy, pe.1)) ∧
    (∀ pe ∈ entriesOf (runOps emptyBook ops).asks,
        idxFind (runOps emptyBook ops).id_index (pe.2).id = some (Side.Sell, pe.1)) ∧
    (∀ l ∈ (runOps emptyBook ops).bids, l.2 ≠ []) ∧
    (∀ l ∈ (runOps emptyBook ops).asks, l.2 ≠ []) := by
  obtain ⟨hwf, -, -⟩ := runOps_preserve ops emptyBook [] emptyBook_WF
    (by rw [restingIds_empty]; exact List.nil_subset _) h
  refine ⟨?_, hwf.book_to_idx Side.Buy, hwf.book_to_idx Side.Sell,
    fun l hl => (hwf.bidsWF l hl).1, fun l hl => (hwf.asksWF l hl).1⟩
  intro e he
  obtain ⟨o₀, ho₀, hid₀⟩ := hwf.idx_to_book e he
  obtain ⟨q, hq, hoq⟩ := entriesOf_lookup (hwf.ladder_keys_nodup e.2.1) ho₀
  have hlvl : ((e.2.2 : Int), q) ∈ ladderOf (runOps emptyBook ops) e.2.1 :=
    lookupLevel_eq_some hq
  refine ⟨q, hq, ?_, fun o' ho' => ((hwf.ladder_wf e.2.1 _ hlvl).2 o' ho').2.2⟩
  have hqidsN : (q.map Order.id).Nodup :=
    (hwf.ladder_ids_nodup e.2.1).sublist (level_ids_sublist hlvl)
  have hmemid : e.1 ∈ q.map Order.id := List.mem_map.mpr ⟨o₀, hoq, hid₀⟩
  have hcnt : q.countP (fun o => o.id == e.1) = (q.map Order.id).count e.1 := by
    rw [List.count, List.countP_map]
    rfl
  rw [hcnt]
  have hle := List.nodup_iff_count_le_one.mp hqidsN e.1
  have hge := List.count_pos_iff.mpr hmemid
  omega

/-- C6 witness: the consistency statement evaluated on a concrete mixed
sequence of adds (one of which trades) and a cancel. -/
theorem runOps_index_consistent_witness :
    OpsValid [] c6Ops ∧
    ((∀ e ∈ (runOps emptyBook c6Ops).id_index,
        ∃ q, lookupLevel (ladderOf (runOps emptyBook c6Ops) e.2.1) e.2.2 = some q ∧
          q.countP (fun o => o.id == e.1) = 1 ∧ ∀ o ∈ q, 0 < o.qty) ∧
    (∀ pe ∈ entriesOf (runOps emptyBook c6Ops).bids,
        idxFind (runOps emptyBook c6Ops).id_index (pe.2).id = some (Side.Buy, pe.1)) ∧
    (∀ pe ∈ entriesOf (runOps emptyBook c6Ops).asks,
        idxFind (runOps emptyBook c6Ops).id_index (pe.2).id = some (Side.Sell, pe.1)) ∧
    (∀ l ∈ (runOps emptyBook c6Ops).bids, l.2 ≠ []) ∧
    (∀ l ∈ (runOps emptyBook c6Ops).asks, l.2 ≠ [])) :=
  ⟨by decide, runOps_index_consistent c6Ops (by decide)⟩

/-- C7: `cancel i` succeeds exactly when an order with id `i` is resting,
and then removes it; it fails otherwise — in particular for fully filled
orders, which are no longer resting; and once it has succeeded, any later
`cancel i` after further valid operations fails, so `cancel` returns true
at most once per id over the engine lifetime. -/
theorem cancel_contract (ops : List Op) (i : Nat) (h : OpsValid [] ops) :
    ((cancel (runOps emptyBook ops) i).1 = true ↔
      i ∈ restingIds (runOps emptyBook ops)) ∧
    i ∉ restingIds (cancel (runOps emptyBook ops) i).2 ∧
    ((cancel (runOps emptyBook ops) i).1 = true →
      ∀ ops2, OpsValid (addIds ops) ops2 →
        (cancel (runOps (cancel (runOps emptyBook ops) i).2 ops2) i).1 = false) := by
  obtain ⟨hwf, hsub, -⟩ := runOps_preserve ops emptyBook [] emptyBook_WF
    (by rw [restingIds_empty]; exact List.nil_subset _) h
  refine ⟨cancel_true_iff _ i hwf, cancel_not_resting _ i hwf, ?_⟩
  intro htrue ops2 hv2
  have hires : i ∈ restingIds (runOps emptyBook ops) :=
    (cancel_true_iff _ i hwf).mp htrue
  have hiadd : i ∈ addIds ops := by
    have hmm := hsub hires
    simpa using hmm
  have hwf2 : BookWF (cancel (runOps emptyBook ops) i).2 := cancel_WF _ i hwf
  have hsub2 : restingIds (cancel (runOps emptyBook ops) i).2 ⊆ addIds ops := by
    intro x hx
    have hmm := hsub (cancel_restingIds _ i hwf hx)
    simpa using hmm
  obtain ⟨hwf3, -, hP⟩ := runOps_preserve ops2 _ (addIds ops) hwf2 hsub2 hv2
  have hnot : i ∉ restingIds (runOps (cancel (runOps emptyBook ops) i).2 ops2) :=
    hP i hiadd (cancel_not_resting _ i hwf)
  cases hres : (cancel (runOps (cancel (runOps emptyBook ops) i).2 ops2) i).1 with
  | false => rfl
  | true => exact absurd ((cancel_true_iff _ i hwf3).mp hres) hnot

/-- C7 witness: cancelling the only resting order succeeds, removes it,
and a repeated cancel after a further valid add fails. -/
theorem cancel_contract_witness :
    OpsValid [] c7Ops ∧
    (((cancel (runOps emptyBook c7Ops) 1).1 = true ↔
       1 ∈ restingIds (runOps emptyBook c7Ops)) ∧
     1 ∉ restingIds (cancel (runOps emptyBook c7Ops) 1).2 ∧
     ((cancel (runOps emptyBook c7Ops) 1).1 = true →
       ∀ ops2, OpsValid (addIds c7Ops) ops2 →
         (cancel (runOps (cancel (runOps emptyBook c7Ops) 1).2 ops2) 1).1 = false)) :=
  ⟨by decide, cancel_contract c7Ops 1 (by decide)⟩

end XChange

namespace XChange

/-! ### Trade sourcing and quantity conservation -/

/-- `add_order` keeps every resting order sourced from a submission: after
processing `o` against a book sourced from `S`, the book is sourced from
`o :: S`. -/
theorem add_order_sourced (b : Book) (o : Order) (S : List Order)
    (h : Sourced S b) : Sourced (o :: S) (add_order b o).2 := by
  cases hs : o.side with
  | Buy =>
    have hgoal : (add_order b o).2 =
        (if 0 < (matchAsks o b.asks).taker.qty
         then enqueue { b with asks := (matchAsks o b.asks).levels,
                               id_index := idxEraseAll b.id_index (matchAsks o b.asks).removed }
                (matchAsks o b.asks).taker
         else { b with asks := (matchAsks o b.asks).levels,
                       id_index := idxEraseAll b.id_index (matchAsks o b.asks).removed }) := by
      rw [add_order_eq_buy b o hs]
      by_cases henq : 0 < (matchAsks o b.asks).taker.qty <;> simp [henq]
    have hAsk : ∀ o' ∈ ordersOf (matchAsks o b.asks).levels,
        ∃ o₀ ∈ o :: S, o₀.id = o'.id ∧ o₀.price = o'.price := by
      intro o' ho'
      obtain ⟨p, hpe⟩ := ordersOf_entries ho'
      obtain ⟨o₁, hpe₁, hid, -, hpr⟩ := matchAsks_entries b.asks o (p, o') hpe
      obtain ⟨o₀, ho₀, hid₀, hpr₀⟩ :=
        h o₁ (List.mem_append_right _ (entriesOf_orders hpe₁))
      exact ⟨o₀, List.mem_cons_of_mem _ ho₀, hid₀.trans hid.symm, hpr₀.trans hpr.symm⟩
    rw [hgoal]
    by_cases henq : 0 < (matchAsks o b.asks).taker.qty
    · rw [if_pos henq]
      have htkside : (matchAsks o b.asks).taker.side = Side.Buy :=
        (matchAsks_taker_fields b.asks o).2.1.trans hs
      rw [enqueue_eq_buy _ _ htkside]
      intro o' ho'
      rcases List.mem_append.mp ho' with hb | ha
      · have hb2 := (insertBid_orders_perm (matchAsks o b.asks).taker b.bids).mem_iff.mp hb
        rcases List.mem_cons.mp hb2 with heq | hb'
        · refine ⟨o, List.mem_cons_self _ _, ?_, ?_⟩
          · rw [heq]
            exact ((matchAsks_taker_fields b.asks o).1).symm
          · rw [heq]
            exact ((matchAsks_taker_fields b.asks o).2.2).symm
        · obtain ⟨o₀, ho₀, hid₀, hpr₀⟩ := h o' (List.mem_append_left _ hb')
          exact ⟨o₀, List.mem_cons_of_mem _ ho₀, hid₀, hpr₀⟩
      · exact hAsk o' ha
    · rw [if_neg henq]
      intro o' ho'
      rcases List.mem_append.mp ho' with hb | ha
      · obtain ⟨o₀, ho₀, hid₀, hpr₀⟩ := h o' (List.mem_append_left _ hb)
        exact ⟨o₀, List.mem_cons_of_mem _ ho₀, hid₀, hpr₀⟩
      · exact hAsk o' ha
  | Sell =>
    have hgoal : (add_order b o).2 =
        (if 0 < (matchBids o b.bids).taker.qty
         then enqueue { b with bids := (matchBids o b.bids).levels,
                               id_index := idxEraseAll b.id_index (matchBids o b.bids).removed }
                (matchBids o b.bids).taker
         else { b with bids := (matchBids o b.bids).levels,
                       id_index := idxEraseAll b.id_index (matchBids o b.bids).removed }) := by
      rw [add_order_eq_sell b o hs]
      by_cases henq : 0 < (matchBids o b.bids).taker.qty <;> simp [henq]
    have hBid : ∀ o' ∈ ordersOf (matchBids o b.bids).levels,
        ∃ o₀ ∈ o :: S, o₀.id = o'.id ∧ o₀.price = o'.price := by
      intro o' ho'
      obtain ⟨p, hpe⟩ := ordersOf_entries ho'
      obtain ⟨o₁, hpe₁, hid, -, hpr⟩ := matchBids_entries b.bids o (p, o') hpe
      obtain ⟨o₀, ho₀, hid₀, hpr₀⟩ :=
        h o₁ (List.mem_append_left _ (entriesOf_orders hpe₁))
      exact ⟨o₀, List.mem_cons_of_mem _ ho₀, hid₀.trans hid.symm, hpr₀.trans hpr.symm⟩
    rw [hgoal]
    by_cases henq : 0 < (matchBids o b.bids).taker.qty
    · rw [if_pos henq]
      have htkside : (matchBids o b.bids).taker.side = Side.Sell :=
        (matchBids_taker_fields b.bids o).2.1.trans hs
      rw [enqueue_eq_sell _ _ htkside]
      intro o' ho'
      rcases List.mem_append.mp ho' with hb | ha
      · exact hBid o' hb
      · have ha2 := (insertAsk_orders_perm (matchBids o b.bids).taker b.asks).mem_iff.mp ha
        rcases List.mem_cons.mp ha2 with heq | ha'
        · refine ⟨o, List.mem_cons_self _ _, ?_, ?_⟩
          · rw [heq]
            exact ((matchBids_taker_fields b.bids o).1).symm
          · rw [heq]
            exact ((matchBids_taker_fields b.bids o).2.2).symm
        · obtain ⟨o₀, ho₀, hid₀, hpr₀⟩ := h o' (List.mem_append_right _ ha')
          exact ⟨o₀, List.mem_cons_of_mem _ ho₀, hid₀, hpr₀⟩
    · rw [if_neg henq]
      intro o' ho'
      rcases List.mem_append.mp ho' with hb | ha
      · exact hBid o' hb
      · obtain ⟨o₀, ho₀, hid₀, hpr₀⟩ := h o' (List.mem_append_right _ ha)
        exact ⟨o₀, List.mem_cons_of_mem _ ho₀, hid₀, hpr₀⟩

/-- The trades of one `add_order` call carry the taker's id, strictly
positive quantity, and the id and price of an order resting before the
call. -/
theorem add_order_trades_src (b : Book) (o : Order) (hwf : BookWF b) :
    ∀ t ∈ (add_order b o).1, t.taker_id = o.id ∧ 0 < t.qty ∧
      ∃ o' ∈ ordersOf b.bids ++ ordersOf b.asks,
        t.maker_id = o'.id ∧ t.price = o'.price := by
  cases hs : o.side with
  | Buy =>
    have hgoal : (add_order b o).1 = (matchAsks o b.asks).trades := by
      rw [add_order_eq_buy b o hs]
      by_cases henq : 0 < (matchAsks o b.asks).taker.qty <;> simp [henq]
    rw [hgoal]
    intro t ht
    obtain ⟨hA, hB, o', ho', hC, hD⟩ := matchAsks_trades b.asks o hwf.asksWF t ht
    exact ⟨hA, hB, o', List.mem_append_right _ ho', hC, hD⟩
  | Sell =>
    have hgoal : (add_order b o).1 = (matchBids o b.bids).trades := by
      rw [add_order_eq_sell b o hs]
      by_cases henq : 0 < (matchBids o b.bids).taker.qty <;> simp [henq]
    rw [hgoal]
    intro t ht
    obtain ⟨hA, hB, o', ho', hC, hD⟩ := matchBids_trades b.bids o hwf.bidsWF t ht
    exact ⟨hA, hB, o', List.mem_append_left _ ho', hC, hD⟩

/-- Trade sourcing along a run of submissions: every emitted trade has
positive quantity, a maker drawn from the accumulated submissions, and a
taker drawn from the remaining submissions. -/
theorem runOrders_trades_aux (os : List Order) : ∀ (b : Book) (S : List Order) (U : List Nat),
    BookWF b → Sourced S b → restingIds b ⊆ U → OpsValid U (os.map Op.add) →
    ∀ t ∈ (runOrders b os).2, 0 < t.qty ∧
      (∃ o₀ ∈ S ++ os, t.maker_id = o₀.id ∧ t.price = o₀.price) ∧
      t.taker_id ∈ os.map Order.id := by
  induction os with
  | nil =>
    intro b S U _ _ _ _ t ht
    simp [runOrders] at ht
  | cons o rest ih =>
    intro b S U hwf hsrc hsub hval
    obtain ⟨hq, hfreshU, hval2⟩ := hval
    have hfresh : o.id ∉ restingIds b := fun hx => hfreshU (hsub hx)
    have hsub2 : restingIds (add_order b o).2 ⊆ o.id :: U := by
      intro x hx
      rcases List.mem_cons.mp (add_order_restingIds b o hx) with rfl | hx2
      · exact List.mem_cons_self _ _
      · exact List.mem_cons_of_mem _ (hsub hx2)
    have hrun : (runOrders b (o :: rest)).2 =
        (add_order b o).1 ++ (runOrders (add_order b o).2 rest).2 := rfl
    intro t ht
    rw [hrun] at ht
    rcases List.mem_append.mp ht with h1 | h2
    · obtain ⟨hA, hB, o', ho', hC, hD⟩ := add_order_trades_src b o hwf t h1
      obtain ⟨o₀, ho₀, hid₀, hpr₀⟩ := hsrc o' ho'
      refine ⟨hB, ⟨o₀, List.mem_append_left _ ho₀,
        hC.trans hid₀.symm, hD.trans hpr₀.symm⟩, ?_⟩
      rw [List.map_cons, hA]
      exact List.mem_cons_self _ _
    · obtain ⟨hB, ⟨o₀, ho₀, hmk⟩, htk⟩ := ih (add_order b o).2 (o :: S) (o.id :: U)
        (add_order_WF b o hwf hfresh) (add_order_sourced b o S hsrc) hsub2 hval2 t h2
      refine ⟨hB, ⟨o₀, ?_, hmk⟩, ?_⟩
      · simp only [List.cons_append, List.mem_cons, List.mem_append] at ho₀ ⊢
        rcases ho₀ with h | h | h
        · exact Or.inr (Or.inl h)
        · exact Or.inl h
        · exact Or.inr (Or.inr h)
      · rw [List.map_cons]
        exact List.mem_cons_of_mem _ htk

/-- One `add_order` call conserves quantity: the book's resting quantity
plus twice the traded quantity grows by exactly the submitted quantity. -/
theorem add_order_qty_conserved (b : Book) (o : Order) (h : 0 ≤ o.qty) :
    restingQty (add_order b o).2 + 2 * tradedQty (add_order b o).1 =
      restingQty b + o.qty := by
  cases hs : o.side with
  | Buy =>
    have hgoal1 : (add_order b o).1 = (matchAsks o b.asks).trades := by
      rw [add_order_eq_buy b o hs]
      by_cases henq : 0 < (matchAsks o b.asks).taker.qty <;> simp [henq]
    have hgoal : (add_order b o).2 =
        (if 0 < (matchAsks o b.asks).taker.qty
         then enqueue { b with asks := (matchAsks o b.asks).levels,
                               id_index := idxEraseAll b.id_index (matchAsks o b.asks).removed }
                (matchAsks o b.asks).taker
         else { b with asks := (matchAsks o b.asks).levels,
                       id_index := idxEraseAll b.id_index (matchAsks o b.asks).removed }) := by
      rw [add_order_eq_buy b o hs]
      by_cases henq : 0 < (matchAsks o b.asks).taker.qty <;> simp [henq]
    rw [hgoal, hgoal1]
    obtain ⟨hq1, hq2⟩ := matchAsks_sums b.asks o
    have hnn : 0 ≤ (matchAsks o b.asks).taker.qty := matchAsks_taker_nonneg b.asks o h
    by_cases henq : 0 < (matchAsks o b.asks).taker.qty
    · have htkside : (matchAsks o b.asks).taker.side = Side.Buy :=
        (matchAsks_taker_fields b.asks o).2.1.trans hs
      rw [if_pos henq, enqueue_eq_buy _ _ htkside]
      have hrq : restingQty
          { { b with asks := (matchAsks o b.asks).levels,
                     id_index := idxEraseAll b.id_index (matchAsks o b.asks).removed } with
            bids := insertBid (matchAsks o b.asks).taker b.bids,
            id_index := idxInsert (idxEraseAll b.id_index (matchAsks o b.asks).removed)
              (matchAsks o b.asks).taker.id
              ((matchAsks o b.asks).taker.side, (matchAsks o b.asks).taker.price) } =
          levelsQty (insertBid (matchAsks o b.asks).taker b.bids) +
            levelsQty (matchAsks o b.asks).levels := rfl
      rw [hrq, insertBid_levelsQty, restingQty]
      omega
    · rw [if_neg henq]
      have hrq : restingQty
          { b with asks := (matchAsks o b.asks).levels,
                   id_index := idxEraseAll b.id_index (matchAsks o b.asks).removed } =
          levelsQty b.bids + levelsQty (matchAsks o b.asks).levels := rfl
      rw [hrq, restingQty]
      omega
  | Sell =>
    have hgoal1 : (add_order b o).1 = (matchBids o b.bids).trades := by
      rw [add_order_eq_sell b o hs]
      by_cases henq : 0 < (matchBids o b.bids).taker.qty <;> simp [henq]
    have hgoal : (add_order b o).2 =
        (if 0 < (matchBids o b.bids).taker.qty
         then enqueue { b with bids := (matchBids o b.bids).levels,
                               id_index := idxEraseAll b.id_index (matchBids o b.bids).removed }
                (matchBids o b.bids).taker
         else { b with bids := (matchBids o b.bids).levels,
                       id_index := idxEraseAll b.id_index (matchBids o b.bids).removed }) := by
      rw [add_order_eq_sell b o hs]
      by_cases henq : 0 < (matchBids o b.bids).taker.qty <;> simp [henq]
    rw [hgoal, hgoal1]
    obtain ⟨hq1, hq2⟩ := matchBids_sums b.bids o
    have hnn : 0 ≤ (matchBids o b.bids).taker.qty := matchBids_taker_nonneg b.bids o h
    by_cases henq : 0 < (matchBids o b.bids).taker.qty
    · have htkside : (matchBids o b.bids).taker.side = Side.Sell :=
        (matchBids_taker_fields b.bids o).2.1.trans hs
      rw [if_pos henq, enqueue_eq_sell _ _ htkside]
      have hrq : restingQty
          { { b with bids := (matchBids o b.bids).levels,
                     id_index := idxEraseAll b.id_index (matchBids o b.bids).removed } with
            asks := insertAsk (matchBids o b.bids).taker b.asks,
            id_index := idxInsert (idxEraseAll b.id_index (matchBids o b.bids).removed)
              (matchBids o b.bids).taker.id
              ((matchBids o b.bids).taker.side, (matchBids o b.bids).taker.price) } =
          levelsQty (matchBids o b.bids).levels +
            levelsQty (insertAsk (matchBids o b.bids).taker b.asks) := rfl
      rw [hrq, insertAsk_levelsQty, restingQty]
      omega
    · rw [if_neg henq]
      have hrq : restingQty
          { b with bids := (matchBids o b.bids).levels,
                   id_index := idxEraseAll b.id_index (matchBids o b.bids).removed } =
          levelsQty (matchBids o b.bids).levels + levelsQty b.asks := rfl
      rw [hrq, restingQty]
      omega

/-- Quantity conservation along a run of submissions, relative to an
arbitrary starting book. -/
theorem runOrders_qty_aux (os : List Order) : ∀ b : Book, (∀ o ∈ os, 0 ≤ o.qty) →
    restingQty (runOrders b os).1 + 2 * tradedQty (runOrders b os).2 =
      restingQty b + (os.map Order.qty).sum := by
  induction os with
  | nil =>
    intro b _
    simp [runOrders, tradedQty]
  | cons o rest ih =>
    intro b h
    have hstep := add_order_qty_conserved b o (h o (List.mem_cons_self _ _))
    have hih := ih (add_order b o).2 (fun o' ho' => h o' (List.mem_cons_of_mem _ ho'))
    have hrun1 : (runOrders b (o :: rest)).1 = (runOrders (add_order b o).2 rest).1 := rfl
    have hrun2 : (runOrders b (o :: rest)).2 =
        (add_order b o).1 ++ (runOrders (add_order b o).2 rest).2 := rfl
    rw [hrun1, hrun2, tradedQty_append, List.map_cons, List.sum_cons]
    omega

end XChange

namespace XChange

/-- C2: for every sequence of `add_order` calls in which each submitted
order has positive quantity and a fresh id, every emitted trade has
strictly positive quantity and is maker-priced: its price is the
(immutable) price of the submitted order whose id the trade records as
maker — regardless of how aggressive the taker's limit price is. -/
theorem trades_maker_priced (os : List Order) (hq : ∀ o ∈ os, 0 < o.qty)
    (hids : (os.map Order.id).Nodup) :
    ∀ t ∈ (runOrders emptyBook os).2,
      0 < t.qty ∧ ∃ o₀ ∈ os, t.maker_id = o₀.id ∧ t.price = o₀.price := by
  have hval : OpsValid [] (os.map Op.add) :=
    opsValid_of_orders os [] hq hids (fun o _ => List.not_mem_nil _)
  have hsrc : Sourced [] emptyBook := by
    intro o' ho'
    simp [emptyBook, ordersOf] at ho'
  intro t ht
  obtain ⟨h1, ⟨o₀, ho₀, h2⟩, -⟩ := runOrders_trades_aux os emptyBook [] []
    emptyBook_WF hsrc (by rw [restingIds_empty]; exact List.nil_subset _) hval t ht
  exact ⟨h1, o₀, by simpa using ho₀, h2⟩

/-- C2 witness: an aggressive buy at 102 trades at the resting sell's
price 101 with positive quantity. -/
theorem trades_maker_priced_witness :
    (∀ o ∈ c2Orders, 0 < o.qty) ∧ ((c2Orders.map Order.id).Nodup) ∧
    (∀ t ∈ (runOrders emptyBook c2Orders).2,
      0 < t.qty ∧ ∃ o₀ ∈ c2Orders, t.maker_id = o₀.id ∧ t.price = o₀.price) :=
  ⟨by decide, by decide, trades_maker_priced c2Orders (by decide) (by decide)⟩

/-- C4: for any sequence of `add_order` submissions with no cancellations,
each with positive quantity and a fresh id, quantity is conserved: the
total submitted quantity equals the total traded quantity counted once per
participating side (twice per trade) plus the total quantity still resting
in the book. -/
theorem quantity_conserved (os : List Order) (hq : ∀ o ∈ os, 0 < o.qty)
    (hids : (os.map Order.id).Nodup) :
    (os.map Order.qty).sum =
      2 * tradedQty (runOrders emptyBook os).2 + restingQty (runOrders emptyBook os).1 := by
  have h := runOrders_qty_aux os emptyBook (fun o ho => le_of_lt (hq o ho))
  have h0 : restingQty emptyBook = 0 := rfl
  omega

/-- C4 witness: 70 units submitted, one trade of 20 (counted for both
sides) and 30 units resting. -/
theorem quantity_conserved_witness :
    (∀ o ∈ ([⟨1, Side.Sell, 101, 50⟩, ⟨2, Side.Buy, 101, 20⟩] : List Order), 0 < o.qty) ∧
    ((([⟨1, Side.Sell, 101, 50⟩, ⟨2, Side.Buy, 101, 20⟩] : List Order).map Order.id).Nodup) ∧
    ((([⟨1, Side.Sell, 101, 50⟩, ⟨2, Side.Buy, 101, 20⟩] : List Order).map Order.qty).sum =
      2 * tradedQty (runOrders emptyBook [⟨1, Side.Sell, 101, 50⟩, ⟨2, Side.Buy, 101, 20⟩]).2 +
      restingQty (runOrders emptyBook [⟨1, Side.Sell, 101, 50⟩, ⟨2, Side.Buy, 101, 20⟩]).1) :=
  ⟨by decide, by decide, quantity_conserved _ (by decide) (by decide)⟩

end XChange
